import Mathlib

/-!
# crypto-onchain-agent: command dispatch, chain registry and formatting

A shallow embedding of `src/main.go` (the handler `ProcessTask` and the helpers
`coingeckoPrice`, `ethBalance`, `isContract`, `getRPC`) together with the
properties of the specification that are settled against it.

Conventions of the embedding.

* A Go `string` is modelled by the list of its runes (`Str`), i.e. the strings
  considered are valid UTF-8.
* Functions of the Go standard library and of go-ethereum that the handler
  calls are transcribed next to their callers, under their Go names.
* Everything outside the process (environment variables, the HTTP exchange with
  the price API, the JSON-RPC node) is a field of `World`; every call that leaves
  the handler is recorded in an event log, so that "no call is attempted" is the
  statement that the log is empty.
-/

namespace CryptoAgent

/-- A Go string, as the sequence of its runes. -/
abbrev Str := List Char

/-! ## Go standard library: package `unicode` and package `strings` -/

/-- The case tables of Go's package `unicode` (`unicode.CaseRanges`), consulted
by `unicode.ToLower` and `unicode.ToUpper` for runes above `unicode.MaxASCII`.
The tables belong to the Go runtime, not to the repository. -/
structure CaseTables where
  /-- Result of `to(LowerCase, r, CaseRanges)`. -/
  lower : Char → Char
  /-- Result of `to(UpperCase, r, CaseRanges)`. -/
  upper : Char → Char

/-- Case tables that leave every rune above `MaxASCII` unchanged. -/
def CaseTables.asciiOnly : CaseTables := ⟨id, id⟩

/-- Go `unicode.IsSpace`: the Latin-1 switch, then the `White_Space` table. -/
def unicodeIsSpace (r : Char) : Bool :=
  let n := r.toNat
  if n ≤ 0xFF then
    n == 0x09 || n == 0x0A || n == 0x0B || n == 0x0C || n == 0x0D || n == 0x20
      || n == 0x85 || n == 0xA0
  else
    n == 0x1680 || (0x2000 ≤ n && n ≤ 0x200A) || n == 0x2028 || n == 0x2029
      || n == 0x202F || n == 0x205F || n == 0x3000

/-- Go `unicode.ToLower`: the ASCII fast path, then the case tables. -/
def unicodeToLower (T : CaseTables) (r : Char) : Char :=
  if r.toNat ≤ 0x7F then r.toLower else T.lower r

/-- Go `unicode.ToUpper`: the ASCII fast path, then the case tables. -/
def unicodeToUpper (T : CaseTables) (r : Char) : Char :=
  if r.toNat ≤ 0x7F then r.toUpper else T.upper r

/-- Go `strings.ToLower`. -/
def ToLower (T : CaseTables) (s : Str) : Str := s.map (unicodeToLower T)

/-- Go `strings.ToUpper`. -/
def ToUpper (T : CaseTables) (s : Str) : Str := s.map (unicodeToUpper T)

/-- Go `strings.TrimSpace`: leading and trailing white space removed. -/
def TrimSpace (s : Str) : Str := (s.dropWhile unicodeIsSpace).rdropWhile unicodeIsSpace

/-- Go `strings.TrimPrefix`. -/
def TrimPrefix (s pre : Str) : Str :=
  if pre.isPrefixOf s then s.drop pre.length else s

/-- The loop of Go `strings.FieldsFunc(s, unicode.IsSpace)`: `cur` holds the
runes of the field being read, last rune first. -/
def fieldsLoop : Str → Str → List Str
  | [], cur => if cur.isEmpty then [] else [cur.reverse]
  | c :: cs, cur =>
    if unicodeIsSpace c then
      if cur.isEmpty then fieldsLoop cs [] else cur.reverse :: fieldsLoop cs []
    else fieldsLoop cs (c :: cur)

/-- Go `strings.Fields`: the maximal runs of non-space runes. -/
def Fields (s : Str) : List Str := fieldsLoop s []

/-- Go `strings.Join`. -/
def Join (elems : List Str) (sep : Str) : Str := sep.intercalate elems

/-! ## Symbol resolver and chain registry -/

/-- The table `symbolToID` of `main.go`. -/
def symbolToID : List (Str × Str) :=
  [ ("eth".data, "ethereum".data),
    ("btc".data, "bitcoin".data),
    ("bnb".data, "binancecoin".data),
    ("matic".data, "matic-network".data),
    ("arb".data, "arbitrum".data),
    ("base".data, "base".data) ]

/-- The first statements of `coingeckoPrice` (lines 36 to 41): the identifier is
trimmed and lower-cased, then replaced by its entry of `symbolToID` if it has one. -/
def resolveID (T : CaseTables) (id : Str) : Str :=
  let id := ToLower T (TrimSpace id)
  match symbolToID.lookup id with
  | some v => v
  | none => id

/-- The function `getRPC` of `main.go`; `getenv` is `os.Getenv`. -/
def getRPC (T : CaseTables) (getenv : Str → Str) (chain : Str) : Str :=
  let c := ToLower T (TrimSpace chain)
  if c = "eth".data ∨ c = "ethereum".data then getenv "ETH_RPC_URL".data
  else if c = "bsc".data ∨ c = "binance".data then getenv "BSC_RPC_URL".data
  else if c = "polygon".data ∨ c = "matic".data then getenv "POLYGON_RPC_URL".data
  else if c = "arbitrum".data then getenv "ARBITRUM_RPC_URL".data
  else if c = "base".data then getenv "BASE_RPC_URL".data
  else []

/-! ## Decimal conversion (Go packages `strconv` and `math/big`) -/

/-- The multiprecision decimal of `strconv/decimal.go` and `math/big/decimal.go`:
the value `0.d₀d₁…dₙ₋₁ × 10^exp`, with decimal digits `mant` that carry no
trailing zero. -/
structure decimal where
  /-- Decimal digits, most significant first. -/
  mant : List Nat
  /-- Position of the decimal point. -/
  exp : Int
deriving DecidableEq, Repr

/-- Value of the ASCII digit `c`. -/
def digitVal (c : Char) : Nat := c.toNat - 48

/-- ASCII digit of the value `d`. -/
def digitChar (d : Nat) : Char := Char.ofNat (48 + d)

/-- Go `trim`: trailing zeros of the digits are removed; the decimal with no
digit left is zero, with exponent `0`. -/
def trim (x : decimal) : decimal :=
  let m := x.mant.rdropWhile (· == 0)
  if m.isEmpty then ⟨[], 0⟩ else ⟨m, x.exp⟩

/-- The digits of `mant × 2^exp`, exactly: what `decimal.init` of `math/big`
(and `Assign` followed by `Shift` in `strconv`) compute for a binary value.
For a negative exponent, `mant × 2^exp = mant × 5^(-exp) / 10^(-exp)`. -/
def decimal.init (mant : Nat) (exp : Int) : decimal :=
  let n := if 0 ≤ exp then mant * 2 ^ exp.toNat else mant * 5 ^ (-exp).toNat
  let ds := (Nat.toDigits 10 n).map digitVal
  trim ⟨ds, (ds.length : Int) - (if 0 ≤ exp then 0 else -exp)⟩

/-- Go `shouldRoundUp`: the digit at `n` decides, an exact half goes to even. -/
def shouldRoundUp (x : decimal) (n : Nat) : Bool :=
  if x.mant.getD n 0 == 5 && n + 1 == x.mant.length then
    0 < n && x.mant.getD (n - 1) 0 % 2 != 0
  else
    5 ≤ x.mant.getD n 0

/-- The loop `for n > 0 && x.mant[n-1] >= '9' { n-- }` of `roundUp`. -/
def skipNines (mant : List Nat) : Nat → Nat
  | 0 => 0
  | n + 1 => if 9 ≤ mant.getD n 0 then skipNines mant n else n + 1

/-- Go `roundUp`, for `0 ≤ n < len(x.mant)`. -/
def decimal.roundUp (x : decimal) (n : Nat) : decimal :=
  let k := skipNines x.mant n
  if k = 0 then ⟨[1], x.exp + 1⟩
  else ⟨(x.mant.take k).set (k - 1) (x.mant.getD (k - 1) 0 + 1), x.exp⟩

/-- Go `roundDown`, for `0 ≤ n < len(x.mant)`. -/
def decimal.roundDown (x : decimal) (n : Nat) : decimal :=
  trim ⟨x.mant.take n, x.exp⟩

/-- Go `round`: `x` is rounded to `n` digits; nothing is done for a negative
`n` or when `x` has no more than `n` digits. -/
def decimal.round (x : decimal) (n : Int) : decimal :=
  if n < 0 ∨ (x.mant.length : Int) ≤ n then x
  else if shouldRoundUp x n.toNat then x.roundUp n.toNat else x.roundDown n.toNat

/-- Go `decimal.at`: the digit at position `i`, `'0'` outside the digits. -/
def decimal.at (x : decimal) (i : Int) : Char :=
  if 0 ≤ i ∧ i < x.mant.length then digitChar (x.mant.getD i.toNat 0) else '0'

/-- Go `fmtF` (`%f`): integer part padded with zeros, then `prec` fraction digits. -/
def fmtF (neg : Bool) (d : decimal) (prec : Nat) : Str :=
  (if neg then ['-'] else [])
    ++ (if 0 < d.exp then
          (d.mant.take d.exp.toNat).map digitChar
            ++ List.replicate (d.exp.toNat - d.mant.length) '0'
        else ['0'])
    ++ (if 0 < prec then '.' :: (List.range prec).map (fun i => d.at (d.exp + i)) else [])

/-- Go `fmtE` (`%e`): one digit, `prec` fraction digits, then the exponent on
at least two digits. -/
def fmtE (neg : Bool) (d : decimal) (prec : Nat) : Str :=
  let exp : Int := if d.mant.isEmpty then 0 else d.exp - 1
  (if neg then ['-'] else [])
    ++ [d.at 0]
    ++ (if 0 < prec then '.' :: (List.range prec).map (fun i => d.at (1 + i)) else [])
    ++ ['e', if exp < 0 then '-' else '+']
    ++ (if exp.natAbs < 10 then '0' :: Nat.toDigits 10 exp.natAbs
        else Nat.toDigits 10 exp.natAbs)

/-- A finite IEEE-754 double, the value `± mant × 2^exp`. The values decoded
from JSON numbers are finite. -/
structure Float64 where
  /-- Sign bit. -/
  neg : Bool
  /-- Integer significand. -/
  mant : Nat
  /-- Binary exponent of the significand's unit. -/
  exp : Int
deriving DecidableEq, Repr

/-- The Go value `0` of type `float64`. -/
def Float64.zero : Float64 := ⟨false, 0, 0⟩

/-- Go `strconv.FormatFloat(v, 'f', prec, 64)`, which `fmt` prints for `%.<prec>f`:
the exact decimal is rounded at `prec` digits after the point. -/
def formatFloatF (v : Float64) (prec : Nat) : Str :=
  let d := decimal.init v.mant v.exp
  fmtF v.neg (d.round (d.exp + prec)) prec

/-- Go `strconv.FormatFloat(v, 'g', prec, 64)`, which `fmt` prints for `%.<prec>g`:
the exact decimal is rounded to `prec` significant digits, then `formatDigits`
chooses `%e` for an exponent below `-4` or not below the precision, `%f` otherwise. -/
def formatFloatG (v : Float64) (prec : Nat) : Str :=
  let prec := if prec = 0 then 1 else prec
  let digs := (decimal.init v.mant v.exp).round prec
  let nd := digs.mant.length
  let eprec : Int := if nd < prec ∧ digs.exp ≤ nd then nd else prec
  let exp := digs.exp - 1
  if exp < -4 ∨ eprec ≤ exp then
    fmtE v.neg digs ((if nd < prec then nd else prec) - 1)
  else
    fmtF v.neg digs (((if digs.exp < prec then (nd : Int) else prec) - digs.exp).toNat)

/-! ## Arbitrary-precision floats (Go package `math/big`) -/

/-- A finite `big.Float`: precision in bits and the value `mant × 2^exp`
(only non-negative values occur). -/
structure BigFloat where
  /-- Mantissa precision in bits; `0` for a fresh `new(big.Float)`. -/
  prec : Nat
  /-- Integer significand, of at most `prec` bits (or `2^prec` after a carry). -/
  mant : Nat
  /-- Binary exponent of the significand's unit. -/
  exp : Int
deriving DecidableEq, Repr

/-- Loop of `bitLen`. -/
def bitLenLoop : Nat → Nat → Nat
  | 0, _ => 0
  | fuel + 1, n => if n = 0 then 0 else 1 + bitLenLoop fuel (n / 2)

/-- Go `(*big.Int).BitLen`: the number of bits of `n`, `0` for `0`. -/
def bitLen (n : Nat) : Nat := bitLenLoop n n

/-- The quotient `num / den` rounded to the nearest integer, an exact half to
the even neighbour. -/
def divRoundHalfEven (num den : Nat) : Nat :=
  let q := num / den
  let r := num % den
  if den < 2 * r ∨ (2 * r = den ∧ q % 2 = 1) then q + 1 else q

/-- The positive rational `num / den` rounded to `prec` bits of mantissa in
mode `ToNearestEven`, the rounding of `big.Float` operations: the result is
`mant × 2^exp` with `2^(prec-1) ≤ mant ≤ 2^prec`. -/
def roundToPrec (num den prec : Nat) : Nat × Int :=
  let b : Int := (bitLen num : Int) - bitLen den
  -- e = ⌊log₂ (num / den)⌋
  let e : Int :=
    if 0 ≤ b then (if den * 2 ^ b.toNat ≤ num then b else b - 1)
    else (if den ≤ num * 2 ^ (-b).toNat then b else b - 1)
  let s : Int := (prec : Int) - 1 - e
  if 0 ≤ s then (divRoundHalfEven (num * 2 ^ s.toNat) den, -s)
  else (divRoundHalfEven num (den * 2 ^ (-s).toNat), -s)

/-- Go `new(big.Float).SetInt(x)` for `x ≥ 0`: the precision becomes the larger
of `x.BitLen()` and `64`, so the value is exact. -/
def BigFloat.SetInt (x : Nat) : BigFloat := ⟨max (bitLen x) 64, x, 0⟩

/-- Go `big.NewFloat(1e18)`: precision `53`; the double `1e18` is exactly `10^18`. -/
def BigFloat.NewFloat1e18 : BigFloat := ⟨53, 10 ^ 18, 0⟩

/-- Go `new(big.Float).Quo(x, y)` for `x ≥ 0`, `y > 0`: the precision of the
fresh result is the larger of the operands' precisions and the quotient is
rounded to it. -/
def BigFloat.Quo (x y : BigFloat) : BigFloat :=
  let prec := max x.prec y.prec
  if x.mant = 0 then ⟨prec, 0, 0⟩
  else
    -- x / y = (x.mant × 2^x.exp) / (y.mant × 2^y.exp)
    let t : Int := x.exp - y.exp
    let num := if 0 ≤ t then x.mant * 2 ^ t.toNat else x.mant
    let den := if 0 ≤ t then y.mant else y.mant * 2 ^ (-t).toNat
    let r := roundToPrec num den prec
    ⟨prec, r.1, r.2⟩

/-- Go `(*big.Float).Text('f', prec)` for a non-negative value. -/
def BigFloat.Text (x : BigFloat) (prec : Nat) : Str :=
  let d := decimal.init x.mant x.exp
  fmtF false (d.round (d.exp + prec)) prec

/-! ## go-ethereum: `common.IsHexAddress` -/

/-- Go `len(s)`: the length of the string in bytes (UTF-8). -/
def byteLen (s : Str) : Nat := (s.map Char.utf8Size).sum

/-- Function `has0xPrefix` of go-ethereum (`common/bytes.go`): the string begins
with `0x` or `0X`. -/
def has0xPrefix (str : Str) : Bool :=
  match str with
  | c0 :: c1 :: _ => c0 == '0' && (c1 == 'x' || c1 == 'X')
  | _ => false

/-- Function `isHexCharacter` of go-ethereum (`common/bytes.go`). -/
def isHexCharacter (c : Char) : Bool :=
  ('0' ≤ c && c ≤ '9') || ('a' ≤ c && c ≤ 'f') || ('A' ≤ c && c ≤ 'F')

/-- Function `isHex` of go-ethereum (`common/bytes.go`): even length and every
byte a hexadecimal digit (the bytes of a rune above ASCII are none). -/
def isHex (str : Str) : Bool :=
  if byteLen str % 2 != 0 then false else str.all isHexCharacter

/-- Function `common.IsHexAddress` of go-ethereum (`common/types.go`), the
library predicate `ProcessTask` calls: an optional `0x` or `0X` is dropped, then
`2 * AddressLength = 40` hexadecimal digits are required. -/
def IsHexAddress (s : Str) : Bool :=
  let s := if has0xPrefix s then s.drop 2 else s
  byteLen s == 40 && isHex s

/-! ## The world outside the process -/

/-- Go `map[string]map[string]float64` as decoded from the response body, its
entries in the order the `range` loop visits them; `none` is the `nil` map. -/
abbrev PriceData := Option (List (Str × Option (List (Str × Float64))))

/-- The errors built in `main.go`, one constructor per `fmt.Errorf`; a `cause`
is the wrapped library error. -/
inductive Error where
  /-- `failed to create request: %w`. -/
  | createRequest (cause : Str)
  /-- `failed fetch price: %w`. -/
  | fetchPrice (cause : Str)
  /-- `coingecko status %d: %s`. -/
  | coingeckoStatus (statusCode : Nat) (body : Str)
  /-- `failed to decode response: %w`. -/
  | decodeResponse (cause : Str)
  /-- `empty response from coingecko for '%s'`. -/
  | emptyResponse (id : Str)
  /-- `USD price not found for '%s' (raw: %s)`. -/
  | usdNotFound (id : Str) (data : PriceData)
  /-- `RPC URL is empty`. -/
  | rpcURLEmpty
  /-- `failed connect rpc: %w`. -/
  | connectRPC (cause : Str)
  /-- `failed get balance: %w`. -/
  | getBalance (cause : Str)
  /-- `failed get code: %w`. -/
  | getCode (cause : Str)
deriving DecidableEq, Repr

/-- What leaves `ProcessTask`: the calls of the three helpers and, inside
them, the requests sent to the network. -/
inductive Event where
  /-- `ProcessTask` calls `coingeckoPrice(id)`. -/
  | coingeckoPrice (id : Str)
  /-- `ProcessTask` calls `ethBalance(ctx, rpc, address)`. -/
  | ethBalance (rpc address : Str)
  /-- `ProcessTask` calls `isContract(ctx, rpc, address)`. -/
  | isContract (rpc address : Str)
  /-- `client.Do(req)` for the URL. -/
  | httpGet (url : Str)
  /-- `ethclient.DialContext(ctx, rpc)`. -/
  | dial (rpc : Str)
  /-- `client.BalanceAt(ctx, common.HexToAddress(address), nil)`. -/
  | balanceAt (rpc address : Str)
  /-- `client.CodeAt(ctx, common.HexToAddress(address), nil)`. -/
  | codeAt (rpc address : Str)
deriving DecidableEq, Repr

/-- An HTTP response as `coingeckoPrice` reads it. -/
structure Response where
  /-- `resp.StatusCode`. -/
  statusCode : Nat
  /-- `io.ReadAll(resp.Body)`. -/
  body : Str
  /-- Outcome of `json.NewDecoder(resp.Body).Decode(&data)`: the error or the map. -/
  decoded : Except Str PriceData

/-- Everything the handler reads from outside: the Go runtime's case tables,
the process environment, and the answers of the price API and of the RPC node.
An answer is `Except.error cause` when the library call returns an error (a
deadline that elapses is one of them). -/
structure World where
  /-- Case tables of package `unicode`. -/
  unicode : CaseTables
  /-- `os.Getenv`. -/
  getenv : Str → Str
  /-- `http.NewRequest("GET", u, nil)`: its error, if any. -/
  newRequest : Str → Option Str
  /-- `client.Do(req)` for the request of the URL. -/
  httpDo : Str → Except Str Response
  /-- `ethclient.DialContext(ctx, rpc)`: its error, if any. -/
  dialContext : Str → Option Str
  /-- `client.BalanceAt(ctx, common.HexToAddress(address), nil)`, in wei. -/
  balanceAt : Str → Str → Except Str Nat
  /-- `client.CodeAt(ctx, common.HexToAddress(address), nil)`. -/
  codeAt : Str → Str → Except Str (List UInt8)

/-! ## The helpers of `main.go` -/

/-- Result of `coingeckoPrice`: the Go triple and the requests sent. -/
structure PriceResult where
  /-- First result, the USD price. -/
  price : Float64
  /-- Second result, the display string. -/
  display : Str
  /-- Third result, the error. -/
  err : Option Error
  /-- Requests sent to the network. -/
  log : List Event

/-- The loop over `data` in `coingeckoPrice`: the `usd` entry of the first
value that has one. -/
def findUSD (data : List (Str × Option (List (Str × Float64)))) : Option Float64 :=
  data.findSome? (fun kv => kv.2.bind (fun val => val.lookup "usd".data))

/-- The function `coingeckoPrice` of `main.go`. -/
def coingeckoPrice (W : World) (id : Str) : PriceResult :=
  let id := resolveID W.unicode id
  let u := "https://api.coingecko.com/api/v3/simple/price?ids=".data ++ id
    ++ "&vs_currencies=usd".data
  match W.newRequest u with
  | some err => ⟨Float64.zero, [], some (Error.createRequest err), []⟩
  | none =>
    match W.httpDo u with
    | .error err => ⟨Float64.zero, [], some (Error.fetchPrice err), [Event.httpGet u]⟩
    | .ok resp =>
      if resp.statusCode ≠ 200 then
        ⟨Float64.zero, [], some (Error.coingeckoStatus resp.statusCode resp.body),
          [Event.httpGet u]⟩
      else
        match resp.decoded with
        | .error err => ⟨Float64.zero, [], some (Error.decodeResponse err), [Event.httpGet u]⟩
        | .ok data =>
          if data = none ∨ (data.getD []).length = 0 then
            ⟨Float64.zero, [], some (Error.emptyResponse id), [Event.httpGet u]⟩
          else
            match findUSD (data.getD []) with
            | none => ⟨Float64.zero, [], some (Error.usdNotFound id data), [Event.httpGet u]⟩
            | some price => ⟨price, '$' :: formatFloatG price 6, none, [Event.httpGet u]⟩

/-- Result of `ethBalance`: the Go pair and the requests sent. -/
structure BalanceResult where
  /-- First result, the display string. -/
  display : Str
  /-- Second result, the error. -/
  err : Option Error
  /-- Requests sent to the network. -/
  log : List Event

/-- Lines 110 to 112 of `ethBalance`: the balance in wei becomes a
`big.Float`, is divided by `big.NewFloat(1e18)` and printed with `Text('f', 18)`
followed by `" ETH"`. -/
def formatBalance (bal : Nat) : Str :=
  let fbal := BigFloat.SetInt bal
  let ethValue := BigFloat.Quo fbal BigFloat.NewFloat1e18
  ethValue.Text 18 ++ " ETH".data

/-- The function `ethBalance` of `main.go`. -/
def ethBalance (W : World) (rpc address : Str) : BalanceResult :=
  if rpc = [] then ⟨[], some Error.rpcURLEmpty, []⟩
  else
    match W.dialContext rpc with
    | some err => ⟨[], some (Error.connectRPC err), [Event.dial rpc]⟩
    | none =>
      match W.balanceAt rpc address with
      | .error err =>
        ⟨[], some (Error.getBalance err), [Event.dial rpc, Event.balanceAt rpc address]⟩
      | .ok bal => ⟨formatBalance bal, none, [Event.dial rpc, Event.balanceAt rpc address]⟩

/-- Result of `isContract`: the Go triple and the requests sent. -/
structure ContractResult where
  /-- First result, whether code is stored at the address. -/
  contract : Bool
  /-- Second result, the size of the code in bytes. -/
  size : Nat
  /-- Third result, the error. -/
  err : Option Error
  /-- Requests sent to the network. -/
  log : List Event

/-- The function `isContract` of `main.go`. -/
def isContract (W : World) (rpc address : Str) : ContractResult :=
  if rpc = [] then ⟨false, 0, some Error.rpcURLEmpty, []⟩
  else
    match W.dialContext rpc with
    | some err => ⟨false, 0, some (Error.connectRPC err), [Event.dial rpc]⟩
    | none =>
      match W.codeAt rpc address with
      | .error err =>
        ⟨false, 0, some (Error.getCode err), [Event.dial rpc, Event.codeAt rpc address]⟩
      | .ok code =>
        ⟨decide (0 < code.length), code.length, none,
          [Event.dial rpc, Event.codeAt rpc address]⟩

/-! ## The handler -/

/-- Result of `ProcessTask`: the Go pair `(string, error)` and everything that
left the handler. -/
structure TaskResult where
  /-- First result, the response. -/
  response : Str
  /-- Second result, the error. -/
  err : Option Error
  /-- Calls of the helpers and requests sent, in order. -/
  log : List Event

/-- The choice of `chain` and `addr` in the `wallet` and `scan_contract` cases
(lines 182 to 191 and 210 to 219): one argument is the address on chain `"eth"`;
of two or more, the first, lower-cased, is the chain and the second the
address; `none` when there is no argument, where the usage string is returned. -/
def chainAndAddr (T : CaseTables) (args : List Str) : Option (Str × Str) :=
  match args with
  | [a0] => some ("eth".data, a0)
  | a0 :: a1 :: _ => some (ToLower T a0, a1)
  | [] => none

/-- The `wallet` case of `ProcessTask` (lines 193 to 207), once `chain` and `addr`
are chosen. -/
def walletBranch (W : World) (chain addr : Str) : TaskResult :=
  let rpc := getRPC W.unicode W.getenv chain
  if rpc = [] then
    ⟨"RPC URL for chain '".data ++ chain ++ "' not configured in .env".data, none, []⟩
  else if !IsHexAddress addr then
    ⟨"Invalid address format. Expected 0x...".data, none, []⟩
  else
    let r := ethBalance W rpc addr
    match r.err with
    | some err => ⟨[], some err, Event.ethBalance rpc addr :: r.log⟩
    | none =>
      ⟨"[".data ++ ToUpper W.unicode chain ++ "] Balance ".data ++ addr ++ ": ".data
          ++ r.display, none, Event.ethBalance rpc addr :: r.log⟩

/-- The `scan_contract` case of `ProcessTask` (lines 221 to 240), once `chain`
and `addr` are chosen. -/
def scanBranch (W : World) (chain addr : Str) : TaskResult :=
  let rpc := getRPC W.unicode W.getenv chain
  if rpc = [] then
    ⟨"RPC URL for chain '".data ++ chain ++ "' not configured in .env".data, none, []⟩
  else if !IsHexAddress addr then
    ⟨"Invalid address format. Expected 0x...".data, none, []⟩
  else
    let r := isContract W rpc addr
    match r.err with
    | some err => ⟨[], some err, Event.isContract rpc addr :: r.log⟩
    | none =>
      let status := if !r.contract then "is NOT a contract".data else "is a contract".data
      ⟨"[".data ++ ToUpper W.unicode chain ++ "] ".data ++ addr ++ " ".data ++ status
          ++ " (code size = ".data ++ Nat.toDigits 10 r.size ++ " bytes)".data,
        none, Event.isContract rpc addr :: r.log⟩

/-- The method `ProcessTask` of `main.go`. -/
def ProcessTask (W : World) (task : Str) : TaskResult :=
  let task := TrimSpace task
  let task := TrimPrefix task "/".data
  let parts := Fields task
  match parts with
  | [] => ⟨"No command provided. Available commands: price, wallet, scan_contract".data, none, []⟩
  | part0 :: args =>
    let cmd := ToLower W.unicode part0
    if cmd = "price".data then
      if args.length = 0 then
        ⟨"Usage: price <coin_id_or_symbol>. Example: price ethereum".data, none, []⟩
      else
        let id := Join args "-".data
        let r := coingeckoPrice W id
        match r.err with
        | some err => ⟨[], some err, Event.coingeckoPrice id :: r.log⟩
        | none =>
          ⟨"Price for ".data ++ id ++ ": ".data ++ formatFloatF r.price 6 ++ " USD (".data
              ++ r.display ++ ")".data, none, Event.coingeckoPrice id :: r.log⟩
    else if cmd = "wallet".data then
      match chainAndAddr W.unicode args with
      | some (chain, addr) => walletBranch W chain addr
      | none =>
        ⟨"Usage: wallet <chain> <0xaddress>. Example: wallet eth 0x123...".data, none, []⟩
    else if cmd = "scan_contract".data then
      match chainAndAddr W.unicode args with
      | some (chain, addr) => scanBranch W chain addr
      | none => ⟨"Usage: scan_contract <chain> <0xaddress>".data, none, []⟩
    else
      ⟨"Unknown command '".data ++ cmd
          ++ "'. Available commands: price, wallet, scan_contract".data, none, []⟩

/-! ## Vocabulary of the properties -/

/-- The tokens `parts` of `ProcessTask` (lines 158 to 160): the task is trimmed,
one leading `/` is stripped, and the rest is split at white space. -/
def taskParts (task : Str) : List Str :=
  Fields (TrimPrefix (TrimSpace task) "/".data)

/-- The three command names. -/
def commandNames : List Str := ["price".data, "wallet".data, "scan_contract".data]

/-- The names and aliases that `getRPC` recognises. -/
def chainNames : List Str :=
  ["eth".data, "ethereum".data, "bsc".data, "binance".data, "polygon".data, "matic".data,
    "arbitrum".data, "base".data]

/-- The string is made of exactly 40 hexadecimal digits. -/
def isHex40 (s : Str) : Bool := s.length == 40 && s.all isHexCharacter

/-- The address pattern in the words of the specification: `0x` followed by
exactly 40 hexadecimal digits. -/
def matches0x40 (s : Str) : Bool :=
  match s with
  | '0' :: 'x' :: body => isHex40 body
  | _ => false

/-- Two properties of Unicode's simple case mapping, which the tables of Go's
package `unicode` have: the lower-case image of a rune is left unchanged by
lower-casing, and lower-casing maps no rune into or out of white space. (For
ASCII runes both hold by the fast path of `unicode.ToLower`.) -/
structure CaseTables.Regular (T : CaseTables) : Prop where
  /-- Lower-casing a lower-case image changes nothing. -/
  lower_lower : ∀ c : Char, 0x7F < c.toNat → unicodeToLower T (T.lower c) = T.lower c
  /-- Lower-casing preserves being white space. -/
  lower_space : ∀ c : Char, 0x7F < c.toNat → unicodeIsSpace (T.lower c) = unicodeIsSpace c

/-- The double nearest to the decimal `65000.1234` (in Go, `0x1.fbd03f2e48e8ap+15`):
`4466774467823429 × 2^-36`. -/
def usd65000_1234 : Float64 := ⟨false, 4466774467823429, -36⟩

/-- A response of the price API with status 200 whose body decodes to
`{"bitcoin": {"usd": v}}`. -/
def bitcoinQuote (v : Float64) : Response where
  statusCode := 200
  body := []
  decoded := .ok (some [("bitcoin".data, some [("usd".data, v)])])

/-- The rendering of a wei amount in the words of the specification: the digits
of `n` with the decimal point placed 18 places from the right, zero-padded,
followed by `" ETH"`. -/
def exactBalance (n : Nat) : Str :=
  Nat.toDigits 10 (n / 10 ^ 18) ++ '.' :: List.leftpad 18 '0' (Nat.toDigits 10 (n % 10 ^ 18))
    ++ " ETH".data

/-! ## Sample worlds -/

/-- An environment that sets `ETH_RPC_URL` and `BASE_RPC_URL` only. -/
def sampleEnv (name : Str) : Str :=
  if name = "ETH_RPC_URL".data then "http://eth.node".data
  else if name = "BASE_RPC_URL".data then "http://base.node".data
  else []

/-- A world with no endpoint configured and no network. -/
def worldUnconfigured : World where
  unicode := CaseTables.asciiOnly
  getenv := fun _ => []
  newRequest := fun _ => none
  httpDo := fun _ => .error "no network".data
  dialContext := fun _ => some "no network".data
  balanceAt := fun _ _ => .error "no network".data
  codeAt := fun _ _ => .error "no network".data

/-- A world configured by `sampleEnv`, whose node reports the balance `bal` and
the code `code` for every address, and whose price API answers `resp`. -/
def worldWith (bal : Nat) (code : List UInt8) (resp : Except Str Response) : World where
  unicode := CaseTables.asciiOnly
  getenv := sampleEnv
  newRequest := fun _ => none
  httpDo := fun _ => resp
  dialContext := fun _ => none
  balanceAt := fun _ _ => .ok bal
  codeAt := fun _ _ => .ok code

/-- The world `W` run on a Go runtime whose case tables are `T`. -/
def World.withTables (W : World) (T : CaseTables) : World := { W with unicode := T }

/-- Case tables that agree with Go's `unicode.CaseRanges` on the long s, U+017F
(entry `{0x017F, 0x017F, d{-300, 0, -300}}`: upper case `S`, lower case itself),
and leave every other rune above ASCII unchanged. -/
def CaseTables.longS : CaseTables where
  lower := id
  upper := fun r => if r = '\u017f' then 'S' else r

/-! ## Vocabulary of the number renderings -/

/-- The decimal digits of `n`, most significant first; none for `0`. -/
def decDigits (n : Nat) : List Nat := (Nat.digits 10 n).reverse

/-- The number written by the decimal digits `ds`, most significant first. -/
def decValue (ds : List Nat) : Nat := Nat.ofDigits 10 ds.reverse

/-- The digits `ds` without their trailing zeros. -/
def stripZeros (ds : List Nat) : List Nat := ds.rdropWhile (· == 0)

/-- Numerator of the absolute value of `v`, the fraction `num / den`. -/
def Float64.num (v : Float64) : Nat :=
  if 0 ≤ v.exp then v.mant * 2 ^ v.exp.toNat else v.mant

/-- Denominator of the absolute value of `v`, the fraction `num / den`. -/
def Float64.den (v : Float64) : Nat :=
  if 0 ≤ v.exp then 1 else 2 ^ (-v.exp).toNat

/-- The integer `K` written in fixed-point form with `p` fraction digits: the
digits of `K`, zero-padded to at least `p + 1`, with the decimal point placed
`p` places from the right. -/
def fixedForm (K p : Nat) : Str :=
  let ds := List.leftpad (p + 1) '0' (Nat.toDigits 10 K)
  ds.take (ds.length - p) ++ '.' :: ds.drop (ds.length - p)

/-- The value `v` with six fractional digits: its sign, then the nearest
multiple of `10^-6` to `|v|` (an exact half to the even neighbour) in fixed-point
form. -/
def sixFractionDigits (v : Float64) : Str :=
  (if v.neg then ['-'] else []) ++ fixedForm (divRoundHalfEven (v.num * 10 ^ 6) v.den) 6

/-- The integer `X` is the decimal exponent of `v`: `10^X ≤ |v| < 10^(X+1)`. -/
def IsDecimalExponent (v : Float64) (X : Int) : Prop :=
  v.den * 10 ^ X.toNat ≤ v.num * 10 ^ (-X).toNat
    ∧ v.num * 10 ^ (-X).toNat < v.den * 10 ^ (X.toNat + 1)

/-- The six significant digits of `v`, of decimal exponent `X`, as an integer:
`|v| / 10^(X-5)` rounded to the nearest integer (an exact half to the even
neighbour); it lies between `10^5` and `10^6`. -/
def sixSignificant (v : Float64) (X : Int) : Nat :=
  divRoundHalfEven (v.num * 10 ^ (5 - X).toNat) (v.den * 10 ^ (X - 5).toNat)

/-- The compact form of the six significant digits `R` at decimal exponent `X`
(the `%g` of C with precision 6): trailing zeros are dropped; a rounding up to
`10^6` is the digit `1` at exponent `X + 1`; the form is scientific, with an
exponent of at least two digits, when the exponent is below `-4` or at least
`6`, and positional otherwise. -/
def compactForm (R : Nat) (X : Int) : Str :=
  let ds := (Nat.toDigits 10 R).rdropWhile (· == '0')
  let X := if R = 10 ^ 6 then X + 1 else X
  if X < -4 ∨ 6 ≤ X then
    ds.take 1 ++ (if 1 < ds.length then '.' :: ds.drop 1 else [])
      ++ ['e', if X < 0 then '-' else '+']
      ++ (if X.natAbs < 10 then '0' :: Nat.toDigits 10 X.natAbs
          else Nat.toDigits 10 X.natAbs)
  else if 0 ≤ X then
    ds.take (X.toNat + 1) ++ List.replicate (X.toNat + 1 - ds.length) '0'
      ++ (if X.toNat + 1 < ds.length then '.' :: ds.drop (X.toNat + 1) else [])
  else
    '0' :: '.' :: List.replicate ((-X).toNat - 1) '0' ++ ds

/-- The value `v ≠ 0`, of decimal exponent `X`, in compact six-significant-digit
form, with its sign. -/
def compactSix (v : Float64) (X : Int) : Str :=
  (if v.neg then ['-'] else []) ++ compactForm (sixSignificant v X) X

/-- The integer `N` with `mant × 2^exp = N / 10^s`, where `s = decimalScale exp`:
`mant × 2^exp` itself for `exp ≥ 0`, and `mant × 5^(-exp)` otherwise. -/
def decimalNumerator (mant : Nat) (exp : Int) : Nat :=
  if 0 ≤ exp then mant * 2 ^ exp.toNat else mant * 5 ^ (-exp).toNat

/-- The number `s` of decimal places of `mant × 2^exp`: `-exp` for a negative
exponent, `0` otherwise. -/
def decimalScale (exp : Int) : Nat := (-exp).toNat

/-- Decimal digits in the normal form of a `decimal`: digits below ten, no
leading zero, no trailing zero. -/
structure ValidDigits (ds : List Nat) : Prop where
  /-- Every digit is below ten. -/
  lt : ∀ d ∈ ds, d < 10
  /-- The first digit is not zero. -/
  head : ∀ h : ds ≠ [], ds.head h ≠ 0
  /-- The last digit is not zero. -/
  last : ∀ h : ds ≠ [], ds.getLast h ≠ 0

/-! ## The handler, case by case -/

theorem ProcessTask_nil (W : World) (task : Str) (h : taskParts task = []) :
    ProcessTask W task =
      ⟨"No command provided. Available commands: price, wallet, scan_contract".data,
        none, []⟩ := by
  unfold taskParts at h
  simp only [ProcessTask, h]

theorem ProcessTask_unknown (W : World) (task part0 : Str) (args : List Str)
    (h : taskParts task = part0 :: args)
    (hcmd : ToLower W.unicode part0 ∉ commandNames) :
    ProcessTask W task =
      ⟨"Unknown command '".data ++ ToLower W.unicode part0
          ++ "'. Available commands: price, wallet, scan_contract".data, none, []⟩ := by
  unfold taskParts at h
  simp only [commandNames, List.mem_cons, List.mem_singleton, not_or, List.not_mem_nil,
    or_false] at hcmd
  obtain ⟨h1, h2, h3⟩ := hcmd
  simp only [ProcessTask, h, if_neg h1, if_neg h2, if_neg h3]

theorem ProcessTask_wallet (W : World) (task part0 : Str) (args : List Str)
    (h : taskParts task = part0 :: args)
    (hcmd : ToLower W.unicode part0 = "wallet".data) :
    ProcessTask W task =
      match chainAndAddr W.unicode args with
      | some (chain, addr) => walletBranch W chain addr
      | none =>
        ⟨"Usage: wallet <chain> <0xaddress>. Example: wallet eth 0x123...".data, none, []⟩ := by
  unfold taskParts at h
  have h1 : ¬ ToLower W.unicode part0 = "price".data := by rw [hcmd]; decide
  simp only [ProcessTask, h, if_neg h1, if_pos hcmd]

theorem ProcessTask_scan (W : World) (task part0 : Str) (args : List Str)
    (h : taskParts task = part0 :: args)
    (hcmd : ToLower W.unicode part0 = "scan_contract".data) :
    ProcessTask W task =
      match chainAndAddr W.unicode args with
      | some (chain, addr) => scanBranch W chain addr
      | none => ⟨"Usage: scan_contract <chain> <0xaddress>".data, none, []⟩ := by
  unfold taskParts at h
  have h1 : ¬ ToLower W.unicode part0 = "price".data := by rw [hcmd]; decide
  have h2 : ¬ ToLower W.unicode part0 = "wallet".data := by rw [hcmd]; decide
  simp only [ProcessTask, h, if_neg h1, if_neg h2, if_pos hcmd]

theorem ProcessTask_price (W : World) (task part0 : Str) (args : List Str)
    (h : taskParts task = part0 :: args)
    (hcmd : ToLower W.unicode part0 = "price".data) :
    ProcessTask W task =
      if args.length = 0 then
        ⟨"Usage: price <coin_id_or_symbol>. Example: price ethereum".data, none, []⟩
      else
        match (coingeckoPrice W (Join args "-".data)).err with
        | some err =>
          ⟨[], some err, Event.coingeckoPrice (Join args "-".data)
            :: (coingeckoPrice W (Join args "-".data)).log⟩
        | none =>
          ⟨"Price for ".data ++ Join args "-".data ++ ": ".data
              ++ formatFloatF (coingeckoPrice W (Join args "-".data)).price 6 ++ " USD (".data
              ++ (coingeckoPrice W (Join args "-".data)).display ++ ")".data, none,
            Event.coingeckoPrice (Join args "-".data)
              :: (coingeckoPrice W (Join args "-".data)).log⟩ := by
  unfold taskParts at h
  simp only [ProcessTask, h, if_pos hcmd]

/-! ## Addresses accepted by `common.IsHexAddress` -/

theorem utf8Size_of_isHexCharacter (c : Char) (h : isHexCharacter c = true) :
    c.utf8Size = 1 := by
  have hc : c.val.toNat ≤ 102 := by
    simp only [isHexCharacter, Bool.or_eq_true, Bool.and_eq_true, decide_eq_true_eq] at h
    rcases h with (⟨_, h⟩ | ⟨_, h⟩) | ⟨_, h⟩
    · have h' : c.val.toNat ≤ 57 := h
      omega
    · exact h
    · have h' : c.val.toNat ≤ 70 := h
      omega
  unfold Char.utf8Size
  have h127 : c.val ≤ UInt32.ofNatCore 127 (by decide) := by
    show c.val.toNat ≤ 127
    omega
  simp only [h127, if_true]

theorem byteLen_of_all_hex (s : Str) (h : s.all isHexCharacter = true) :
    byteLen s = s.length := by
  induction s with
  | nil => rfl
  | cons c cs ih =>
    simp only [List.all_cons, Bool.and_eq_true] at h
    simp only [byteLen, List.map_cons, List.sum_cons, List.length_cons] at ih ⊢
    rw [utf8Size_of_isHexCharacter c h.1, ih h.2]; omega

theorem IsHexAddress_eq_isHex40 (s : Str) :
    (byteLen s == 40 && isHex s) = isHex40 s := by
  unfold isHex isHex40
  by_cases hall : s.all isHexCharacter = true
  · rw [byteLen_of_all_hex s hall, hall]
    by_cases h40 : s.length = 40
    · simp [h40]
    · simp [h40]
  · simp only [Bool.not_eq_true] at hall
    rw [hall]
    simp

theorem IsHexAddress_iff (s : Str) :
    IsHexAddress s = true ↔
      isHex40 s = true ∨
        ∃ (p : Char) (body : Str), (p = 'x' ∨ p = 'X') ∧ s = '0' :: p :: body
          ∧ isHex40 body = true := by
  unfold IsHexAddress
  simp only [IsHexAddress_eq_isHex40]
  by_cases hp : has0xPrefix s = true
  · rw [if_pos hp]
    obtain ⟨c0, c1, body, rfl, h0, h1⟩ :
        ∃ c0 c1 body, s = c0 :: c1 :: body ∧ c0 = '0' ∧ (c1 = 'x' ∨ c1 = 'X') := by
      match s, hp with
      | c0 :: c1 :: body, hp =>
        simp only [has0xPrefix, Bool.and_eq_true, Bool.or_eq_true, beq_iff_eq] at hp
        exact ⟨c0, c1, body, rfl, hp.1, hp.2⟩
    subst h0
    simp only [List.drop_succ_cons, List.drop_zero]
    constructor
    · intro h; exact Or.inr ⟨c1, body, h1, rfl, h⟩
    · rintro (h | ⟨p, body', _, heq, h⟩)
      · exfalso
        simp only [isHex40, List.all_cons, Bool.and_eq_true] at h
        rcases h1 with rfl | rfl
        · exact absurd h.2.2.1 (by decide)
        · exact absurd h.2.2.1 (by decide)
      · simp only [List.cons.injEq, true_and] at heq
        rw [heq.2]; exact h
  · rw [if_neg hp]
    constructor
    · intro h; exact Or.inl h
    · rintro (h | ⟨p, body, hpx, rfl, _⟩)
      · exact h
      · exfalso; apply hp
        simp only [has0xPrefix, Bool.and_eq_true, Bool.or_eq_true, beq_iff_eq, true_and]
        exact hpx

/-! ## Lemmas on the string functions -/

theorem ascii_induction (P : Char → Prop) (h : ∀ n, n < 128 → P (Char.ofNat n))
    (c : Char) (hc : c.toNat ≤ 0x7F) : P c := by
  have := h c.toNat (by omega)
  rwa [Char.ofNat_toNat] at this

set_option maxRecDepth 100000 in
theorem ascii_toLower (c : Char) (hc : c.toNat ≤ 0x7F) :
    c.toLower.toNat ≤ 0x7F ∧ c.toLower.toLower = c.toLower
      ∧ unicodeIsSpace c.toLower = unicodeIsSpace c := by
  refine ascii_induction
    (fun c => c.toLower.toNat ≤ 0x7F ∧ c.toLower.toLower = c.toLower
      ∧ unicodeIsSpace c.toLower = unicodeIsSpace c) ?_ c hc
  decide

theorem unicodeToLower_idem (T : CaseTables) (hT : T.Regular) (c : Char) :
    unicodeToLower T (unicodeToLower T c) = unicodeToLower T c := by
  by_cases hc : c.toNat ≤ 0x7F
  · have h := ascii_toLower c hc
    simp only [unicodeToLower, if_pos hc, if_pos h.1, h.2.1]
  · have h := hT.lower_lower c (by omega)
    simp only [unicodeToLower, if_neg hc] at h ⊢
    exact h

theorem unicodeIsSpace_toLower (T : CaseTables) (hT : T.Regular) (c : Char) :
    unicodeIsSpace (unicodeToLower T c) = unicodeIsSpace c := by
  by_cases hc : c.toNat ≤ 0x7F
  · simp only [unicodeToLower, if_pos hc, (ascii_toLower c hc).2.2]
  · simp only [unicodeToLower, if_neg hc]
    exact hT.lower_space c (by omega)

theorem ToLower_idem (T : CaseTables) (hT : T.Regular) (s : Str) :
    ToLower T (ToLower T s) = ToLower T s := by
  simp only [ToLower, List.map_map]
  apply List.map_congr_left
  intro c _
  exact unicodeToLower_idem T hT c

theorem rdropWhile_cons_of_neg {α : Type} (p : α → Bool) (a : α) (l : List α)
    (ha : ¬ p a = true) : (a :: l).rdropWhile p = a :: l.rdropWhile p := by
  induction l using List.reverseRecOn with
  | nil =>
    have : [a] = [] ++ [a] := rfl
    rw [this, List.rdropWhile_concat_neg _ _ _ ha]
    simp
  | append_singleton l b ih =>
    rw [← List.cons_append]
    by_cases hb : p b = true
    · rw [List.rdropWhile_concat_pos _ _ _ hb, List.rdropWhile_concat_pos _ _ _ hb]
      exact ih
    · rw [List.rdropWhile_concat_neg _ _ _ hb, List.rdropWhile_concat_neg _ _ _ hb]
      simp

theorem dropWhile_rdropWhile_dropWhile {α : Type} (p : α → Bool) (l : List α) :
    ((l.dropWhile p).rdropWhile p).dropWhile p = (l.dropWhile p).rdropWhile p := by
  cases hd : l.dropWhile p with
  | nil => simp
  | cons a t =>
    have ha : ¬ p a = true := by
      have := List.head_dropWhile_not p l (by rw [hd]; exact List.cons_ne_nil _ _)
      simp only [hd, List.head_cons] at this
      simp [this]
    rw [rdropWhile_cons_of_neg p a t ha, List.dropWhile_cons_of_neg ha]

theorem TrimSpace_idem (s : Str) : TrimSpace (TrimSpace s) = TrimSpace s := by
  unfold TrimSpace
  rw [dropWhile_rdropWhile_dropWhile, List.rdropWhile_idempotent]

theorem dropWhile_map_of_comp {α : Type} (p : α → Bool) (f : α → α)
    (hf : ∀ a, p (f a) = p a) (l : List α) :
    (l.map f).dropWhile p = (l.dropWhile p).map f := by
  induction l with
  | nil => rfl
  | cons a t ih =>
    by_cases ha : p a = true
    · have hfa : p (f a) = true := by rw [hf]; exact ha
      rw [List.map_cons, List.dropWhile_cons_of_pos hfa, List.dropWhile_cons_of_pos ha, ih]
    · have hfa : ¬ p (f a) = true := by rw [hf]; exact ha
      rw [List.map_cons, List.dropWhile_cons_of_neg hfa, List.dropWhile_cons_of_neg ha,
        List.map_cons]

theorem rdropWhile_map_of_comp {α : Type} (p : α → Bool) (f : α → α)
    (hf : ∀ a, p (f a) = p a) (l : List α) :
    (l.map f).rdropWhile p = (l.rdropWhile p).map f := by
  unfold List.rdropWhile
  rw [← List.map_reverse, dropWhile_map_of_comp p f hf, List.map_reverse]

theorem TrimSpace_ToLower (T : CaseTables) (hT : T.Regular) (s : Str) :
    TrimSpace (ToLower T s) = ToLower T (TrimSpace s) := by
  unfold TrimSpace ToLower
  rw [dropWhile_map_of_comp _ _ (unicodeIsSpace_toLower T hT),
    rdropWhile_map_of_comp _ _ (unicodeIsSpace_toLower T hT)]

theorem lookup_mem {α β : Type} [BEq α] [LawfulBEq α] (l : List (α × β)) (k : α) (v : β)
    (h : l.lookup k = some v) : (k, v) ∈ l := by
  induction l with
  | nil => simp at h
  | cons kv t ih =>
    obtain ⟨k', v'⟩ := kv
    by_cases hk : k = k'
    · subst hk
      simp only [List.lookup_cons, beq_self_eq_true, Option.some.injEq] at h
      subst h
      exact List.mem_cons_self _ _
    · have : (k == k') = false := by simpa using hk
      simp only [List.lookup_cons, this] at h
      exact List.mem_cons_of_mem _ (ih h)

theorem dropWhile_append_of_all {α : Type} (p : α → Bool) (l s : List α)
    (hl : ∀ x ∈ l, p x = true) : (l ++ s).dropWhile p = s.dropWhile p := by
  induction l with
  | nil => rfl
  | cons a t ih =>
    rw [List.cons_append, List.dropWhile_cons_of_pos (hl a (List.mem_cons_self _ _))]
    exact ih (fun x hx => hl x (List.mem_cons_of_mem _ hx))

theorem rdropWhile_append_of_all {α : Type} (p : α → Bool) (s r : List α)
    (hr : ∀ x ∈ r, p x = true) : (s ++ r).rdropWhile p = s.rdropWhile p := by
  unfold List.rdropWhile
  rw [List.reverse_append, dropWhile_append_of_all p r.reverse s.reverse
    (fun x hx => hr x (List.mem_reverse.mp hx))]

theorem TrimSpace_append_right (s r : Str) (hr : ∀ x ∈ r, unicodeIsSpace x = true) :
    TrimSpace (s ++ r) = TrimSpace s := by
  unfold TrimSpace
  induction s with
  | nil =>
    have : r.dropWhile unicodeIsSpace = [] := by
      have := dropWhile_append_of_all unicodeIsSpace r [] hr
      simpa using this
    simp [this]
  | cons a t ih =>
    by_cases ha : unicodeIsSpace a = true
    · rw [List.cons_append, List.dropWhile_cons_of_pos ha, List.dropWhile_cons_of_pos ha]
      exact ih
    · rw [List.cons_append, List.dropWhile_cons_of_neg ha, List.dropWhile_cons_of_neg ha,
        ← List.cons_append, rdropWhile_append_of_all _ _ _ hr]

theorem TrimSpace_surround (l s r : Str) (hl : ∀ x ∈ l, unicodeIsSpace x = true)
    (hr : ∀ x ∈ r, unicodeIsSpace x = true) : TrimSpace (l ++ s ++ r) = TrimSpace s := by
  rw [TrimSpace_append_right _ _ hr]
  unfold TrimSpace
  rw [dropWhile_append_of_all _ _ _ hl]

theorem char_toLower_class (T : CaseTables) (c : Char) :
    unicodeIsSpace c.toLower = unicodeIsSpace c
      ∧ unicodeToLower T c.toLower = unicodeToLower T c := by
  by_cases hc : c.toNat ≤ 0x7F
  · have h := ascii_toLower c hc
    refine ⟨h.2.2, ?_⟩
    simp only [unicodeToLower, if_pos hc, if_pos h.1, h.2.1]
  · have : c.toLower = c := by
      unfold Char.toLower
      rw [if_neg]
      intro h
      apply hc
      have h2 : c.toNat ≤ 90 := h.2
      omega
    rw [this]
    exact ⟨rfl, rfl⟩

/-- The lower-cased, trimmed name, which is all `getRPC` and `resolveID` look
at, is the same for two strings that differ in the case of ASCII letters. -/
theorem ToLower_TrimSpace_fold (T : CaseTables) (s : Str) :
    ToLower T (TrimSpace (s.map Char.toLower)) = ToLower T (TrimSpace s) := by
  unfold TrimSpace ToLower
  rw [dropWhile_map_of_comp _ _ (fun c => (char_toLower_class T c).1),
    rdropWhile_map_of_comp _ _ (fun c => (char_toLower_class T c).1), List.map_map]
  apply List.map_congr_left
  intro c _
  exact (char_toLower_class T c).2

theorem getRPC_congr (T : CaseTables) (getenv : Str → Str) (c c' : Str)
    (h : ToLower T (TrimSpace c') = ToLower T (TrimSpace c)) :
    getRPC T getenv c' = getRPC T getenv c := by
  simp only [getRPC, h]

set_option maxRecDepth 100000 in
theorem ascii_toUpper_toLower (c : Char) (hc : c.toNat ≤ 0x7F) :
    c.toLower.toUpper = c.toUpper := by
  refine ascii_induction (fun c => c.toLower.toUpper = c.toUpper) ?_ c hc
  decide

theorem ToUpper_ToLower_ascii (T : CaseTables) (s : Str) (hs : ∀ c ∈ s, c.toNat ≤ 0x7F) :
    ToUpper T (ToLower T s) = ToUpper T s := by
  simp only [ToUpper, ToLower, List.map_map]
  apply List.map_congr_left
  intro c hc
  have h := ascii_toLower c (hs c hc)
  simp only [Function.comp, unicodeToUpper, unicodeToLower, if_pos (hs c hc), if_pos h.1,
    ascii_toUpper_toLower c (hs c hc)]

theorem ethBalance_ok (W : World) (rpc addr : Str) (bal : Nat) (hrpc : rpc ≠ [])
    (hdial : W.dialContext rpc = none) (hbal : W.balanceAt rpc addr = .ok bal) :
    ethBalance W rpc addr =
      ⟨formatBalance bal, none, [Event.dial rpc, Event.balanceAt rpc addr]⟩ := by
  simp only [ethBalance, if_neg hrpc, hdial, hbal]

theorem isContract_ok (W : World) (rpc addr : Str) (code : List UInt8) (hrpc : rpc ≠ [])
    (hdial : W.dialContext rpc = none) (hcode : W.codeAt rpc addr = .ok code) :
    isContract W rpc addr =
      ⟨decide (0 < code.length), code.length, none,
        [Event.dial rpc, Event.codeAt rpc addr]⟩ := by
  simp only [isContract, if_neg hrpc, hdial, hcode]

theorem isContract_flag (W : World) (rpc addr : Str) :
    (isContract W rpc addr).contract = true ↔ 0 < (isContract W rpc addr).size := by
  unfold isContract
  split
  · simp
  · split
    · simp
    · split
      · simp
      · simp

/-! ## Decimal digit lists -/

theorem decValue_decDigits (n : Nat) : decValue (decDigits n) = n := by
  simp [decValue, decDigits, Nat.ofDigits_digits]

theorem decDigits_lt (n d : Nat) (hd : d ∈ decDigits n) : d < 10 := by
  simp only [decDigits, List.mem_reverse] at hd
  exact Nat.digits_lt_base (by norm_num) hd

theorem decDigits_zero : decDigits 0 = [] := by simp [decDigits]

theorem decDigits_ne_nil {n : Nat} (hn : n ≠ 0) : decDigits n ≠ [] := by
  simp [decDigits, Nat.digits_eq_nil_iff_eq_zero, hn]

theorem decDigits_head_ne_zero {n : Nat} (hn : n ≠ 0) (h : decDigits n ≠ []) :
    (decDigits n).head h ≠ 0 := by
  have := Nat.getLast_digit_ne_zero 10 hn
  simpa [decDigits, List.head_reverse] using this

/-- A list of decimal digits without leading zero is the list of digits of its value. -/
theorem decDigits_decValue (l : List Nat) (h1 : ∀ d ∈ l, d < 10)
    (h2 : ∀ h : l ≠ [], l.head h ≠ 0) : decDigits (decValue l) = l := by
  unfold decDigits decValue
  rw [Nat.digits_ofDigits 10 (by norm_num) l.reverse (by simpa using h1)
    (by
      intro h
      have hl : l ≠ [] := by simpa using h
      rw [List.getLast_reverse]
      exact h2 hl)]
  exact List.reverse_reverse l

theorem decValue_nil : decValue [] = 0 := rfl

theorem decValue_append (l₁ l₂ : List Nat) :
    decValue (l₁ ++ l₂) = decValue l₁ * 10 ^ l₂.length + decValue l₂ := by
  unfold decValue
  rw [List.reverse_append, Nat.ofDigits_append, List.length_reverse]
  ring

theorem decValue_cons (d : Nat) (l : List Nat) :
    decValue (d :: l) = d * 10 ^ l.length + decValue l := by
  have := decValue_append [d] l
  simpa [decValue] using this

theorem decValue_singleton (d : Nat) : decValue [d] = d := by simp [decValue]

theorem decValue_replicate_zero (k : Nat) : decValue (List.replicate k 0) = 0 := by
  induction k with
  | zero => rfl
  | succ k ih =>
    rw [List.replicate_succ, decValue_cons, ih]
    simp

theorem decValue_append_zeros (l : List Nat) (k : Nat) :
    decValue (l ++ List.replicate k 0) = decValue l * 10 ^ k := by
  rw [decValue_append, decValue_replicate_zero, List.length_replicate, Nat.add_zero]

theorem decValue_lt (l : List Nat) (h : ∀ d ∈ l, d < 10) : decValue l < 10 ^ l.length := by
  unfold decValue
  have := Nat.ofDigits_lt_base_pow_length (b := 10) (l := l.reverse) (by norm_num)
    (by simpa using h)
  simpa using this

theorem decValue_pos_of_head (l : List Nat) (hl : l ≠ []) (h : l.head hl ≠ 0) :
    10 ^ (l.length - 1) ≤ decValue l := by
  match l, hl, h with
  | d :: t, _, h =>
    rw [decValue_cons]
    simp only [List.head_cons] at h
    simp only [List.length_cons, Nat.add_sub_cancel]
    have : 1 ≤ d := Nat.one_le_iff_ne_zero.mpr h
    calc 10 ^ t.length = 1 * 10 ^ t.length := (Nat.one_mul _).symm
      _ ≤ d * 10 ^ t.length := Nat.mul_le_mul_right _ this
      _ ≤ d * 10 ^ t.length + decValue t := Nat.le_add_right _ _

theorem decValue_pos_of_last (l : List Nat) (hl : l ≠ []) (h : l.getLast hl ≠ 0) :
    0 < decValue l := by
  obtain ⟨t, d, rfl⟩ : ∃ t d, l = t ++ [d] := ⟨l.dropLast, l.getLast hl,
    (List.dropLast_append_getLast hl).symm⟩
  simp only [List.getLast_append_singleton] at h
  rw [decValue_append, decValue_singleton]
  omega

theorem decDigits_length_bounds {n : Nat} (hn : n ≠ 0) :
    10 ^ ((decDigits n).length - 1) ≤ n ∧ n < 10 ^ (decDigits n).length := by
  have h1 := decValue_pos_of_head (decDigits n) (decDigits_ne_nil hn)
    (decDigits_head_ne_zero hn _)
  have h2 := decValue_lt (decDigits n) (decDigits_lt n)
  rw [decValue_decDigits] at h1 h2
  exact ⟨h1, h2⟩

theorem decDigits_pow_mul (n k : Nat) (hn : n ≠ 0) :
    decDigits (n * 10 ^ k) = decDigits n ++ List.replicate k 0 := by
  have h := decDigits_decValue (decDigits n ++ List.replicate k 0)
    (by
      intro d hd
      rcases List.mem_append.mp hd with h | h
      · exact decDigits_lt n d h
      · rw [List.eq_of_mem_replicate h]; norm_num)
    (by
      intro h
      rw [List.head_append_of_ne_nil (decDigits_ne_nil hn)]
      exact decDigits_head_ne_zero hn _)
  rw [decValue_append_zeros, decValue_decDigits] at h
  exact h

/-! ## Stripping trailing zeros -/

theorem stripZeros_append_zeros (l : List Nat) (k : Nat) :
    stripZeros (l ++ List.replicate k 0) = stripZeros l := by
  unfold stripZeros
  exact rdropWhile_append_of_all _ _ _ (fun x hx => by
    rw [List.eq_of_mem_replicate hx]; rfl)

theorem stripZeros_of_last (l : List Nat) (h : ∀ hl : l ≠ [], l.getLast hl ≠ 0) :
    stripZeros l = l := by
  unfold stripZeros
  rw [List.rdropWhile_eq_self_iff]
  intro hl
  simpa using h hl

theorem stripZeros_spec (l : List Nat) :
    ∃ k, l = stripZeros l ++ List.replicate k 0
      ∧ ∀ hl : stripZeros l ≠ [], (stripZeros l).getLast hl ≠ 0 := by
  induction l using List.reverseRecOn with
  | nil => exact ⟨0, by simp [stripZeros], fun hl => absurd rfl hl⟩
  | append_singleton t d ih =>
    by_cases hd : d = 0
    · obtain ⟨k, hk, hlast⟩ := ih
      have hs : stripZeros (t ++ [d]) = stripZeros t := by
        unfold stripZeros
        rw [List.rdropWhile_concat_pos]
        simp [hd]
      refine ⟨k + 1, ?_, by rw [hs]; exact hlast⟩
      rw [hs, List.replicate_succ', ← List.append_assoc, ← hk, hd]
    · have hs : stripZeros (t ++ [d]) = t ++ [d] := by
        unfold stripZeros
        rw [List.rdropWhile_concat_neg]
        simp [hd]
      refine ⟨0, by simp [hs], ?_⟩
      intro hl
      simp only [hs, List.getLast_append_singleton]
      exact hd

theorem stripZeros_head (l : List Nat) (hl : l ≠ []) (h : l.head hl ≠ 0) :
    ∃ hs : stripZeros l ≠ [], (stripZeros l).head hs = l.head hl := by
  match l, hl, h with
  | d :: t, _, h =>
    simp only [List.head_cons] at h
    have : stripZeros (d :: t) = d :: stripZeros t := by
      unfold stripZeros
      exact rdropWhile_cons_of_neg _ d t (by simp [h])
    rw [this]
    exact ⟨List.cons_ne_nil _ _, rfl⟩

/-! ## `Nat.toDigits` and digit lists -/

theorem toDigitsCore_eq (fuel n : Nat) (acc : List Char) (hn : n ≠ 0) (hf : n < fuel) :
    Nat.toDigitsCore 10 fuel n acc = (decDigits n).map Nat.digitChar ++ acc := by
  induction fuel generalizing n acc with
  | zero => omega
  | succ fuel ih =>
    have hdig : decDigits n = decDigits (n / 10) ++ [n % 10] := by
      unfold decDigits
      rw [Nat.digits_def' (by norm_num) (Nat.pos_of_ne_zero hn), List.reverse_cons]
    simp only [Nat.toDigitsCore]
    by_cases h10 : n / 10 = 0
    · rw [if_pos h10, hdig, h10, decDigits_zero]
      rfl
    · rw [if_neg h10, ih (n / 10) _ h10 (by omega), hdig]
      simp

theorem toDigits_eq (n : Nat) (hn : n ≠ 0) :
    Nat.toDigits 10 n = (decDigits n).map Nat.digitChar := by
  unfold Nat.toDigits
  rw [toDigitsCore_eq (n + 1) n [] hn (by omega), List.append_nil]

theorem toDigits_zero : Nat.toDigits 10 0 = ['0'] := rfl

theorem digitChar_eq (d : Nat) (hd : d < 10) : digitChar d = Nat.digitChar d := by
  interval_cases d <;> rfl

theorem digitVal_digitChar (d : Nat) (hd : d < 10) : digitVal (Nat.digitChar d) = d := by
  interval_cases d <;> rfl

theorem map_digitChar_eq (l : List Nat) (h : ∀ d ∈ l, d < 10) :
    l.map digitChar = l.map Nat.digitChar :=
  List.map_congr_left (fun d hd => digitChar_eq d (h d hd))

theorem toDigits_map_digitVal (n : Nat) (hn : n ≠ 0) :
    (Nat.toDigits 10 n).map digitVal = decDigits n := by
  rw [toDigits_eq n hn, List.map_map]
  conv_rhs => rw [← List.map_id (decDigits n)]
  apply List.map_congr_left
  intro d hd
  exact digitVal_digitChar d (decDigits_lt n d hd)

theorem toDigits_eq_map_digitChar (n : Nat) (hn : n ≠ 0) :
    Nat.toDigits 10 n = (decDigits n).map digitChar := by
  rw [toDigits_eq n hn, map_digitChar_eq _ (decDigits_lt n)]

/-! ## Rounding to nearest, ties to even -/

theorem divRoundHalfEven_mul_right (a b c : Nat) (hc : 0 < c) :
    divRoundHalfEven (a * c) (b * c) = divRoundHalfEven a b := by
  unfold divRoundHalfEven
  simp only [Nat.mul_div_mul_right a b hc, Nat.mul_mod_mul_right]
  have h1 : b * c < 2 * (a % b * c) ↔ b < 2 * (a % b) := by
    rw [← Nat.mul_assoc]
    exact Nat.mul_lt_mul_right hc
  have h2 : 2 * (a % b * c) = b * c ↔ 2 * (a % b) = b := by
    rw [← Nat.mul_assoc]
    exact Nat.mul_left_inj (Nat.pos_iff_ne_zero.mp hc)
  simp only [h1, h2]

theorem divRoundHalfEven_mul_self (a b : Nat) (hb : 0 < b) :
    divRoundHalfEven (a * b) b = a := by
  unfold divRoundHalfEven
  simp only [Nat.mul_div_cancel a hb, Nat.mul_mod_left, Nat.mul_zero]
  rw [if_neg]
  omega

theorem divRoundHalfEven_eq_zero (a b : Nat) (h : 2 * a < b) : divRoundHalfEven a b = 0 := by
  unfold divRoundHalfEven
  have hlt : a < b := by omega
  simp only [Nat.div_eq_of_lt hlt, Nat.mod_eq_of_lt hlt]
  rw [if_neg]
  omega

/-- Equal fractions round to the same integer. -/
theorem divRoundHalfEven_congr (a b c d : Nat) (hb : 0 < b) (hd : 0 < d) (h : a * d = c * b) :
    divRoundHalfEven a b = divRoundHalfEven c d := by
  rw [← divRoundHalfEven_mul_right a b d hd, ← divRoundHalfEven_mul_right c d b hb, h,
    Nat.mul_comm b d]

/-- The integer `divRoundHalfEven a b` is nearest to `a / b`: it differs from it
by at most one half, and is even when it differs by exactly one half. -/
theorem divRoundHalfEven_nearest (a b : Nat) (hb : 0 < b) :
    2 * (divRoundHalfEven a b * b) ≤ 2 * a + b
      ∧ 2 * a ≤ 2 * (divRoundHalfEven a b * b) + b
      ∧ (2 * (divRoundHalfEven a b * b) = 2 * a + b
          ∨ 2 * a = 2 * (divRoundHalfEven a b * b) + b → divRoundHalfEven a b % 2 = 0) := by
  have h := Nat.div_add_mod a b
  have hr := Nat.mod_lt a hb
  have hs : (a / b + 1) * b = b * (a / b) + b := by ring
  have hq : a / b * b = b * (a / b) := Nat.mul_comm _ _
  unfold divRoundHalfEven
  simp only
  split
  · rw [hs]
    refine ⟨by omega, by omega, fun _ => by omega⟩
  · rw [hq]
    refine ⟨by omega, by omega, fun _ => by omega⟩

/-! ## The exact decimal of a binary value -/

theorem decimalNumerator_ne_zero (mant : Nat) (exp : Int) (h : mant ≠ 0) :
    decimalNumerator mant exp ≠ 0 := by
  unfold decimalNumerator
  split
  · exact Nat.mul_ne_zero h (by positivity)
  · exact Nat.mul_ne_zero h (by positivity)

theorem validDigits_strip_decDigits (n : Nat) : ValidDigits (stripZeros (decDigits n)) := by
  obtain ⟨k, hk, hlast⟩ := stripZeros_spec (decDigits n)
  refine ⟨fun d hd => ?_, fun h => ?_, hlast⟩
  · apply decDigits_lt n d
    rw [hk]
    exact List.mem_append_left _ hd
  · by_cases hn : n = 0
    · exfalso
      rw [hn, decDigits_zero] at h
      exact h rfl
    · obtain ⟨hs, hh⟩ := stripZeros_head (decDigits n) (decDigits_ne_nil hn)
        (decDigits_head_ne_zero hn _)
      rw [hh]
      exact decDigits_head_ne_zero hn _

theorem stripZeros_decDigits_ne_nil {n : Nat} (hn : n ≠ 0) : stripZeros (decDigits n) ≠ [] :=
  (stripZeros_head (decDigits n) (decDigits_ne_nil hn) (decDigits_head_ne_zero hn _)).1

theorem decimal_init_eq (mant : Nat) (exp : Int) (h : mant ≠ 0) :
    decimal.init mant exp =
      ⟨stripZeros (decDigits (decimalNumerator mant exp)),
        ((decDigits (decimalNumerator mant exp)).length : Int) - decimalScale exp⟩ := by
  have hN := decimalNumerator_ne_zero mant exp h
  have hds := toDigits_map_digitVal (decimalNumerator mant exp) hN
  have hs : (if 0 ≤ exp then (0 : Int) else -exp) = (decimalScale exp : Int) := by
    unfold decimalScale
    split <;> omega
  unfold decimal.init
  simp only
  unfold decimalNumerator at hds
  unfold decimalNumerator
  rw [hds, hs]
  unfold trim
  simp only
  have hne := stripZeros_decDigits_ne_nil hN
  unfold decimalNumerator stripZeros at hne
  unfold stripZeros
  have hemp : (List.rdropWhile (fun x => x == 0)
      (decDigits (if 0 ≤ exp then mant * 2 ^ exp.toNat else mant * 5 ^ (-exp).toNat))).isEmpty
        = false := by
    rw [List.isEmpty_eq_false]
    exact hne
  rw [hemp]
  rfl

theorem decimal_init_zero (exp : Int) : decimal.init 0 exp = ⟨[], 0⟩ := by
  unfold decimal.init
  simp only [Nat.zero_mul, ite_self]
  rfl

/-! ## Rounding a decimal -/

theorem getD_append_length (a r : List Nat) (dn : Nat) :
    (a ++ dn :: r).getD a.length 0 = dn := by
  induction a with
  | nil => rfl
  | cons x t ih => simpa using ih

theorem getD_append_pred (a r : List Nat) (dn : Nat) (ha : a ≠ []) :
    (a ++ dn :: r).getD (a.length - 1) 0 = a.getLast ha := by
  obtain ⟨t, x, rfl⟩ : ∃ t x, a = t ++ [x] := ⟨a.dropLast, a.getLast ha,
    (List.dropLast_append_getLast ha).symm⟩
  have := getD_append_length t (dn :: r) x
  simpa using this

theorem decValue_mod_two (a : List Nat) (ha : a ≠ []) :
    decValue a % 2 = a.getLast ha % 2 := by
  obtain ⟨t, x, rfl⟩ : ∃ t x, a = t ++ [x] := ⟨a.dropLast, a.getLast ha,
    (List.dropLast_append_getLast ha).symm⟩
  simp only [List.getLast_append_singleton]
  rw [decValue_append, decValue_singleton]
  simp only [List.length_singleton, pow_one]
  omega

theorem validDigits_tail_pos (a r : List Nat) (dn : Nat) (hv : ValidDigits (a ++ dn :: r))
    (hr : r ≠ []) : 0 < decValue r := by
  apply decValue_pos_of_last r hr
  have := hv.last (by simp)
  rw [List.getLast_append_of_ne_nil (by simp)] at this
  rw [List.getLast_cons hr] at this
  exact this

theorem decValue_split (a r : List Nat) (dn : Nat) :
    decValue (a ++ dn :: r) =
      decValue a * 10 ^ (r.length + 1) + (dn * 10 ^ r.length + decValue r) := by
  rw [decValue_append, decValue_cons, List.length_cons]

theorem decValue_split_lt (a r : List Nat) (dn : Nat) (hv : ∀ d ∈ a ++ dn :: r, d < 10) :
    dn * 10 ^ r.length + decValue r < 10 ^ (r.length + 1) := by
  have h1 : decValue r < 10 ^ r.length :=
    decValue_lt r (fun d hd => hv d (by simp [hd]))
  have h2 : dn < 10 := hv dn (by simp)
  have : dn * 10 ^ r.length ≤ 9 * 10 ^ r.length := Nat.mul_le_mul_right _ (by omega)
  rw [pow_succ]
  omega

theorem shouldRoundUp_eq (a r : List Nat) (dn : Nat) (e : Int)
    (hv : ValidDigits (a ++ dn :: r)) :
    shouldRoundUp ⟨a ++ dn :: r, e⟩ a.length =
      decide (10 ^ (r.length + 1) < 2 * (dn * 10 ^ r.length + decValue r)
        ∨ (2 * (dn * 10 ^ r.length + decValue r) = 10 ^ (r.length + 1)
            ∧ decValue a % 2 = 1)) := by
  have hdn : dn < 10 := hv.lt dn (by simp)
  have hrl : decValue r < 10 ^ r.length :=
    decValue_lt r (fun d hd => hv.lt d (by simp [hd]))
  unfold shouldRoundUp
  simp only [getD_append_length, List.length_append, List.length_cons]
  by_cases hr : r = []
  · subst hr
    simp only [List.length_nil, Nat.add_zero, beq_self_eq_true, Bool.and_true, pow_zero,
      Nat.mul_one, decValue_nil, Nat.zero_add, pow_one]
    by_cases ha : a = []
    · subst ha
      simp only [List.length_nil, Nat.lt_irrefl, decide_False, Bool.false_and, decValue_nil]
      by_cases h5 : dn = 5
      · subst h5; simp
      · have : (dn == 5) = false := by simpa using h5
        simp only [this, Bool.false_eq_true, if_false]
        rw [decide_eq_decide]
        omega
    · have hpos : 0 < a.length := List.length_pos.mpr ha
      rw [getD_append_pred a [] dn ha, decValue_mod_two a ha]
      by_cases h5 : dn = 5
      · subst h5
        simp only [beq_self_eq_true, if_true, hpos, decide_True, Bool.true_and]
        have hm : a.getLast ha % 2 = 0 ∨ a.getLast ha % 2 = 1 := by omega
        rcases hm with hm | hm <;> simp [hm]
      · have : (dn == 5) = false := by simpa using h5
        simp only [this, Bool.false_eq_true, if_false]
        rw [decide_eq_decide]
        omega
  · have hpos := validDigits_tail_pos a r dn hv hr
    have hlen : 0 < r.length := List.length_pos.mpr hr
    have hne : (a.length + 1 == a.length + (r.length + 1)) = false := by
      simp only [beq_eq_false_iff_ne, ne_eq]
      omega
    simp only [hne, Bool.and_false, Bool.false_eq_true, if_false]
    rw [decide_eq_decide, pow_succ]
    generalize 10 ^ r.length = P at *
    constructor
    · intro h
      left
      have : 5 * P ≤ dn * P := Nat.mul_le_mul_right _ h
      omega
    · intro h
      by_contra hlt
      have h4 : dn ≤ 4 := by omega
      have : dn * P ≤ 4 * P := Nat.mul_le_mul_right _ h4
      omega

theorem getD_append_length' (a r : List Nat) (x : Nat) (n : Nat) (hn : n = a.length) :
    (a ++ x :: r).getD n 0 = x := by
  subst hn
  exact getD_append_length a r x

theorem replicate_split (j m : Nat) (c : Nat) (h : m < j) :
    List.replicate j c = List.replicate m c ++ c :: List.replicate (j - m - 1) c := by
  have : j = m + (1 + (j - m - 1)) := by omega
  conv_lhs => rw [this, List.replicate_add, List.replicate_add]
  rfl

theorem skipNines_nines (n : Nat) (rest : List Nat) :
    ∀ m, m ≤ n → skipNines (List.replicate n 9 ++ rest) m = 0 := by
  intro m
  induction m with
  | zero => intro _; rfl
  | succ m ih =>
    intro hm
    have hget : (List.replicate n 9 ++ rest).getD m 0 = 9 := by
      rw [replicate_split n m 9 (by omega), List.append_assoc, List.cons_append]
      exact getD_append_length' _ _ _ _ (by simp)
    simp only [skipNines, hget, le_refl, if_true]
    exact ih (by omega)

theorem skipNines_found (t : List Nat) (d j : Nat) (rest : List Nat) (hd : d < 9) :
    ∀ m, m ≤ j →
      skipNines (t ++ d :: (List.replicate j 9 ++ rest)) (t.length + 1 + m) = t.length + 1 := by
  intro m
  induction m with
  | zero =>
    intro _
    have hget : (t ++ d :: (List.replicate j 9 ++ rest)).getD t.length 0 = d :=
      getD_append_length _ _ _
    simp only [Nat.add_zero, skipNines, hget]
    rw [if_neg (by omega)]
  | succ m ih =>
    intro hm
    have hget : (t ++ d :: (List.replicate j 9 ++ rest)).getD (t.length + 1 + m) 0 = 9 := by
      rw [replicate_split j m 9 (by omega)]
      have : t ++ d :: (List.replicate m 9 ++ 9 :: List.replicate (j - m - 1) 9 ++ rest)
          = (t ++ d :: List.replicate m 9) ++ 9 :: (List.replicate (j - m - 1) 9 ++ rest) := by
        simp
      rw [this]
      exact getD_append_length' _ _ _ _ (by simp; omega)
    rw [← Nat.add_assoc, skipNines]
    simp only [hget, le_refl, if_true]
    exact ih (by omega)

/-- A digit list is all nines, or ends in a digit below nine followed by nines. -/
theorem nines_decomposition (a : List Nat) :
    a = List.replicate a.length 9
      ∨ ∃ (t : List Nat) (d j : Nat), a = t ++ d :: List.replicate j 9 ∧ d ≠ 9 := by
  induction a using List.reverseRecOn with
  | nil => left; rfl
  | append_singleton t x ih =>
    by_cases hx : x = 9
    · subst hx
      rcases ih with h | ⟨t', d, j, h, hd⟩
      · left
        rw [List.length_append, List.length_singleton, List.replicate_succ', ← h]
      · right
        refine ⟨t', d, j + 1, ?_, hd⟩
        rw [h, List.replicate_succ']
        simp
    · right
      exact ⟨t, x, 0, by simp, hx⟩

theorem decValue_nines (n : Nat) : decValue (List.replicate n 9) + 1 = 10 ^ n := by
  induction n with
  | zero => rfl
  | succ n ih =>
    rw [List.replicate_succ', decValue_append, decValue_singleton, List.length_singleton,
      pow_succ]
    omega

theorem decDigits_pow (n : Nat) : decDigits (10 ^ n) = 1 :: List.replicate n 0 := by
  have := decDigits_pow_mul 1 n (by norm_num)
  rw [Nat.one_mul] at this
  rw [this]
  have h1 : decDigits 1 = [1] := by
    have := decDigits_decValue [1] (by simp) (by simp)
    simpa [decValue_singleton] using this
  rw [h1]
  rfl

theorem validDigits_head_left (x y : List Nat) (hv : ValidDigits (x ++ y)) (hx : x ≠ []) :
    x.head hx ≠ 0 := by
  match x, hx with
  | c :: x', _ =>
    have := hv.head (by simp)
    simpa using this

theorem roundUp_eq (a r : List Nat) (dn : Nat) (e : Int)
    (hv : ValidDigits (a ++ dn :: r)) :
    decimal.roundUp ⟨a ++ dn :: r, e⟩ a.length =
      ⟨stripZeros (decDigits (decValue a + 1)),
        e + (decDigits (decValue a + 1)).length - a.length⟩ := by
  rcases nines_decomposition a with h9 | ⟨t, d, j, hdec, hd9⟩
  · -- every kept digit is a nine: the result is the digit 1, one place up
    have hk : skipNines (a ++ dn :: r) a.length = 0 := by
      conv_lhs => rw [h9]
      simpa using skipNines_nines a.length (dn :: r) a.length (le_refl _)
    have hval : decValue a + 1 = 10 ^ a.length := by
      conv_lhs => rw [h9]
      exact decValue_nines a.length
    unfold decimal.roundUp
    simp only [hk, if_true]
    rw [hval, decDigits_pow]
    have hs : stripZeros (1 :: List.replicate a.length 0) = [1] := by
      have := stripZeros_append_zeros [1] a.length
      rw [List.singleton_append] at this
      rw [this]
      exact stripZeros_of_last [1] (by simp)
    rw [hs]
    simp only [List.length_cons, List.length_replicate, decimal.mk.injEq, true_and]
    push_cast
    omega
  · -- the last digit below nine is incremented, the nines after it are dropped
    have hd : d < 9 := by
      have : d < 10 := hv.lt d (by rw [hdec]; simp)
      omega
    have hlen : a.length = t.length + 1 + j := by
      rw [hdec]; simp; omega
    have hds : a ++ dn :: r = t ++ d :: (List.replicate j 9 ++ dn :: r) := by
      rw [hdec]; simp
    have hk : skipNines (a ++ dn :: r) a.length = t.length + 1 := by
      rw [hds, hlen]
      exact skipNines_found t d j (dn :: r) hd j (le_refl _)
    have hu : ValidDigits (t ++ [d + 1]) := by
      refine ⟨fun x hx => ?_, fun h => ?_, fun h => ?_⟩
      · rcases List.mem_append.mp hx with h | h
        · exact hv.lt x (by rw [hds]; simp [h])
        · simp only [List.mem_singleton] at h
          omega
      · by_cases ht : t = []
        · subst ht; simp
        · rw [List.head_append_of_ne_nil ht]
          exact validDigits_head_left t (d :: (List.replicate j 9 ++ dn :: r)) (hds ▸ hv) ht
      · simp
    have hval : decValue a + 1 = decValue (t ++ [d + 1]) * 10 ^ j := by
      have hn := decValue_nines j
      have h1 : decValue (t ++ d :: List.replicate j 9) =
          decValue t * (10 ^ j * 10) + (d * 10 ^ j + decValue (List.replicate j 9)) := by
        rw [decValue_append, decValue_cons, List.length_cons, List.length_replicate, pow_succ]
      have h2 : decValue (t ++ [d + 1]) = decValue t * 10 + (d + 1) := by
        rw [decValue_append, decValue_singleton, List.length_singleton, pow_one]
      rw [hdec, h1, h2, ← hn]
      ring
    have hne : decValue (t ++ [d + 1]) ≠ 0 := by
      have := decValue_pos_of_last (t ++ [d + 1]) (by simp) (by simp)
      omega
    unfold decimal.roundUp
    simp only [hk, Nat.add_sub_cancel]
    rw [if_neg (by omega), hval, decDigits_pow_mul _ _ hne,
      decDigits_decValue _ hu.lt hu.head, stripZeros_append_zeros, stripZeros_of_last _ hu.last]
    have htake : List.take (t.length + 1) (a ++ dn :: r) = t ++ [d] := by
      rw [hds]
      have : t ++ d :: (List.replicate j 9 ++ dn :: r)
          = (t ++ [d]) ++ (List.replicate j 9 ++ dn :: r) := by simp
      rw [this, List.take_left' (by simp)]
    have hget : (a ++ dn :: r).getD t.length 0 = d := by
      rw [hds]; exact getD_append_length _ _ _
    rw [htake, hget]
    have hset : (t ++ [d]).set t.length (d + 1) = t ++ [d + 1] := by
      simp [List.set_append_right]
    rw [hset]
    simp only [List.length_append, List.length_singleton, List.length_replicate,
      decimal.mk.injEq, true_and]
    push_cast
    omega

theorem roundDown_eq (a r : List Nat) (dn : Nat) (e : Int)
    (hv : ValidDigits (a ++ dn :: r)) :
    decimal.roundDown ⟨a ++ dn :: r, e⟩ a.length =
      if decValue a = 0 then ⟨[], 0⟩
      else ⟨stripZeros (decDigits (decValue a)),
        e + (decDigits (decValue a)).length - a.length⟩ := by
  unfold decimal.roundDown
  simp only [List.take_left']
  by_cases ha : a = []
  · subst ha
    simp [decValue_nil, trim]
  · have hhead : ∀ h : a ≠ [], a.head h ≠ 0 := by
      intro h
      have := hv.head (by simp)
      simpa [List.head_append_of_ne_nil h] using this
    have hlt : ∀ d ∈ a, d < 10 := fun d hd => hv.lt d (by simp [hd])
    have hpos := decValue_pos_of_head a ha (hhead ha)
    have hne : decValue a ≠ 0 := by
      have : 0 < 10 ^ (a.length - 1) := by positivity
      omega
    rw [if_neg hne, decDigits_decValue a hlt hhead]
    obtain ⟨hs, _⟩ := stripZeros_head a ha (hhead ha)
    unfold trim
    simp only
    have hemp : (List.rdropWhile (fun x => x == 0) a).isEmpty = false := by
      rw [List.isEmpty_eq_false]
      exact hs
    rw [hemp]
    simp only [Bool.false_eq_true, if_false, stripZeros, decimal.mk.injEq, true_and]
    omega

theorem divRoundHalfEven_split (q rem M : Nat) (h : rem < M) :
    divRoundHalfEven (q * M + rem) M =
      if M < 2 * rem ∨ (2 * rem = M ∧ q % 2 = 1) then q + 1 else q := by
  have hM : 0 < M := by omega
  have hdiv : (q * M + rem) / M = q := by
    rw [Nat.add_comm, Nat.add_mul_div_right _ _ hM, Nat.div_eq_of_lt h, Nat.zero_add]
  have hmod : (q * M + rem) % M = rem := by
    rw [Nat.add_comm, Nat.add_mul_mod_self_right, Nat.mod_eq_of_lt h]
  unfold divRoundHalfEven
  simp only [hdiv, hmod]

/-- Go `round` at `n` digits, for a decimal in normal form with more than `n`
digits: the digits are those of the value rounded to the nearest integer in
units of the `n`-th digit, an exact half going to the even neighbour; a carry
into a new leading digit moves the decimal point by one place. -/
theorem round_eq (ds : List Nat) (e : Int) (n : Nat) (hv : ValidDigits ds)
    (hn : n < ds.length) :
    decimal.round ⟨ds, e⟩ (n : Int) =
      if divRoundHalfEven (decValue ds) (10 ^ (ds.length - n)) = 0 then ⟨[], 0⟩
      else
        ⟨stripZeros (decDigits (divRoundHalfEven (decValue ds) (10 ^ (ds.length - n)))),
          e + (decDigits (divRoundHalfEven (decValue ds) (10 ^ (ds.length - n)))).length - n⟩ := by
  obtain ⟨a, dn, r, hds, hlen⟩ : ∃ a dn r, ds = a ++ dn :: r ∧ a.length = n := by
    have hdrop : ds.drop n ≠ [] := by
      intro h
      have := List.length_drop n ds
      rw [h] at this
      simp at this
      omega
    obtain ⟨dn, r, hdr⟩ := List.exists_cons_of_ne_nil hdrop
    refine ⟨ds.take n, dn, r, ?_, ?_⟩
    · rw [← hdr, List.take_append_drop]
    · rw [List.length_take]; omega
  subst hds
  subst hlen
  have hm : (a ++ dn :: r).length - a.length = r.length + 1 := by
    simp only [List.length_append, List.length_cons]; omega
  have hlt := decValue_split_lt a r dn hv.lt
  rw [hm, decValue_split, divRoundHalfEven_split _ _ _ hlt]
  unfold decimal.round
  have hcond : ¬ ((a.length : Int) < 0 ∨ (((a ++ dn :: r).length : Nat) : Int) ≤ a.length) := by
    simp only [List.length_append, List.length_cons]
    push_cast
    omega
  simp only [if_neg hcond, Int.toNat_ofNat, shouldRoundUp_eq a r dn e hv]
  by_cases hup : 10 ^ (r.length + 1) < 2 * (dn * 10 ^ r.length + decValue r)
      ∨ (2 * (dn * 10 ^ r.length + decValue r) = 10 ^ (r.length + 1) ∧ decValue a % 2 = 1)
  · simp only [hup, decide_True, if_true]
    rw [roundUp_eq a r dn e hv, if_neg (Nat.succ_ne_zero _)]
  · simp only [hup, decide_False, Bool.false_eq_true, if_false]
    rw [roundDown_eq a r dn e hv]

/-! ## The layout functions, unfolded -/

theorem flatMap_singleton_eq_map {α β : Type} (l : List α) (g : α → β) :
    (l.flatMap fun a => [g a]) = l.map g := by
  induction l with
  | nil => rfl
  | cons x t ih => simp [List.flatMap_cons, ih]

theorem fmtF_def' (neg : Bool) (d : decimal) (prec : Nat) :
    fmtF neg d prec =
      (if neg then ['-'] else [])
        ++ (if 0 < d.exp then
              (d.mant.take d.exp.toNat).map digitChar
                ++ List.replicate (d.exp.toNat - d.mant.length) '0'
            else ['0'])
        ++ (if 0 < prec then
              '.' :: (List.range prec).map (fun i => d.at (d.exp + (i : Nat))) else []) := by
  unfold fmtF
  simp only [List.bind_eq_flatMap, List.pure_def, flatMap_singleton_eq_map, List.map_map]
  rfl

theorem fmtE_def' (neg : Bool) (d : decimal) (prec : Nat) :
    fmtE neg d prec =
      (if neg then ['-'] else [])
        ++ [d.at 0]
        ++ (if 0 < prec then
              '.' :: (List.range prec).map (fun i => d.at (1 + (i : Nat))) else [])
        ++ ['e', if (if d.mant.isEmpty then (0 : Int) else d.exp - 1) < 0 then '-' else '+']
        ++ (if (if d.mant.isEmpty then (0 : Int) else d.exp - 1).natAbs < 10 then
              '0' :: Nat.toDigits 10 (if d.mant.isEmpty then (0 : Int) else d.exp - 1).natAbs
            else Nat.toDigits 10 (if d.mant.isEmpty then (0 : Int) else d.exp - 1).natAbs) := by
  unfold fmtE
  simp only [List.bind_eq_flatMap, List.pure_def, flatMap_singleton_eq_map, List.map_map]
  rfl
/-! ## Reading the digits of a decimal -/

theorem digitChar_zero : digitChar 0 = '0' := rfl

theorem getD_map_digitChar (l : List Nat) (k : Nat) :
    (l.map digitChar).getD k '0' = digitChar (l.getD k 0) := by
  induction l generalizing k with
  | nil => rfl
  | cons x t ih =>
    cases k with
    | zero => rfl
    | succ k => simpa using ih k

theorem at_neg (ds : List Nat) (E i : Int) (hi : i < 0) : decimal.at ⟨ds, E⟩ i = '0' := by
  unfold decimal.at
  rw [if_neg (by omega)]

theorem at_nat (ds : List Nat) (E : Int) (k : Nat) :
    decimal.at ⟨ds, E⟩ (k : Int) = (ds.map digitChar).getD k '0' := by
  unfold decimal.at
  rw [getD_map_digitChar]
  by_cases hk : k < ds.length
  · rw [if_pos ⟨by omega, by exact_mod_cast hk⟩, Int.toNat_ofNat]
  · rw [if_neg (by
      intro h
      have := h.2
      simp only at this
      omega)]
    rw [List.getD_eq_default _ _ (by omega)]
    rfl

theorem getD_append_zeros (sd : List Nat) (z k : Nat) :
    (sd ++ List.replicate z 0).getD k 0 = sd.getD k 0 := by
  by_cases hk : k < sd.length
  · simp [List.getD_eq_getElem?_getD, List.getElem?_append_left hk]
  · rw [List.getD_eq_default sd 0 (by omega)]
    simp only [List.getD_eq_getElem?_getD]
    rw [List.getElem?_append_right (by omega)]
    by_cases hz : k - sd.length < z
    · simp [List.getElem?_replicate, hz]
    · simp [List.getElem?_replicate, hz]

/-- Trailing zeros may be dropped from the digits without changing what is read. -/
theorem at_append_zeros (sd : List Nat) (z : Nat) (E i : Int) :
    decimal.at ⟨sd, E⟩ i = decimal.at ⟨sd ++ List.replicate z 0, E⟩ i := by
  by_cases hi : i < 0
  · rw [at_neg _ _ _ hi, at_neg _ _ _ hi]
  · obtain ⟨k, rfl⟩ : ∃ k : Nat, i = k := ⟨i.toNat, by omega⟩
    rw [at_nat, at_nat, getD_map_digitChar, getD_map_digitChar, getD_append_zeros]

theorem window_nonneg (f : Int → Char) (cs : List Char)
    (hf : ∀ k : Nat, f (k : Int) = cs.getD k '0') :
    ∀ (m a : Nat), a + m = cs.length →
      (List.range m).map (fun i => f ((a : Int) + (i : Nat))) = cs.drop a := by
  intro m
  induction m with
  | zero =>
    intro a ha
    rw [List.drop_of_length_le (by omega)]
    rfl
  | succ m ih =>
    intro a ha
    have hlt : a < cs.length := by omega
    rw [List.range_succ_eq_map, List.map_cons, List.map_map, List.drop_eq_getElem_cons hlt]
    congr 1
    · simp only [Nat.cast_zero, Int.add_zero, hf]
      rw [List.getD_eq_getElem _ _ hlt]
    · rw [← ih (a + 1) (by omega)]
      apply List.map_congr_left
      intro i _
      simp only [Function.comp, Nat.succ_eq_add_one]
      congr 1
      push_cast
      omega

theorem window_neg (f : Int → Char) (cs : List Char) (hf0 : ∀ i : Int, i < 0 → f i = '0')
    (hf : ∀ k : Nat, f (k : Int) = cs.getD k '0') :
    ∀ (z m : Nat), m = z + cs.length →
      (List.range m).map (fun i => f (-(z : Int) + (i : Nat))) = List.replicate z '0' ++ cs := by
  intro z
  induction z with
  | zero =>
    intro m hm
    have := window_nonneg f cs hf m 0 (by omega)
    simpa using this
  | succ z ih =>
    intro m hm
    obtain ⟨m', rfl⟩ : ∃ m', m = m' + 1 := ⟨m - 1, by omega⟩
    rw [List.range_succ_eq_map, List.map_cons, List.map_map, List.replicate_succ,
      List.cons_append]
    congr 1
    · apply hf0
      push_cast
      omega
    · rw [← ih m' (by omega)]
      apply List.map_congr_left
      intro i _
      simp only [Function.comp, Nat.succ_eq_add_one]
      congr 1
      push_cast
      omega

theorem window_zero (f : Int → Char) (hf0 : ∀ i : Int, i < 0 → f i = '0') (E : Int) (m : Nat)
    (h : E + m ≤ 0) :
    (List.range m).map (fun i => f (E + (i : Nat))) = List.replicate m '0' := by
  rw [List.eq_replicate_iff]
  refine ⟨by simp, fun c hc => ?_⟩
  simp only [List.mem_map, List.mem_range] at hc
  obtain ⟨i, hi, rfl⟩ := hc
  apply hf0
  omega

/-! ## The fixed-point form -/

theorem fixedForm_zero (p : Nat) :
    fixedForm 0 p = '0' :: '.' :: List.replicate p '0' := by
  unfold fixedForm
  have h : List.leftpad (p + 1) '0' (Nat.toDigits 10 0) = '0' :: List.replicate p '0' := by
    rw [toDigits_zero, List.leftpad]
    simp only [List.length_singleton, Nat.add_sub_cancel]
    rw [← List.replicate_succ', List.replicate_succ]
  simp only [h, List.length_cons, List.length_replicate, Nat.add_sub_cancel_left]
  rfl

theorem fixedForm_pos (K p : Nat) (hK : K ≠ 0) :
    fixedForm K p =
      if p < (decDigits K).length then
        ((decDigits K).map digitChar).take ((decDigits K).length - p)
          ++ '.' :: ((decDigits K).map digitChar).drop ((decDigits K).length - p)
      else
        '0' :: '.' :: (List.replicate (p - (decDigits K).length) '0'
          ++ (decDigits K).map digitChar) := by
  unfold fixedForm
  rw [toDigits_eq_map_digitChar K hK, List.leftpad, List.length_map]
  by_cases hp : p < (decDigits K).length
  · rw [if_pos hp]
    have : p + 1 - (decDigits K).length = 0 := by omega
    simp only [this, List.replicate_zero, List.nil_append, List.length_map]
  · rw [if_neg hp]
    obtain ⟨z, hz⟩ : ∃ z, p + 1 - (decDigits K).length = z + 1 :=
      ⟨p - (decDigits K).length, by omega⟩
    have hz' : p - (decDigits K).length = z := by omega
    simp only [hz, hz', List.replicate_succ, List.cons_append, List.length_cons,
      List.length_append, List.length_replicate, List.length_map]
    have hl : z + (decDigits K).length + 1 - p = 1 := by omega
    rw [hl]
    rfl

theorem take_append_zeros_map (sd : List Nat) (z k : Nat) (hk : k ≤ sd.length + z) :
    ((sd ++ List.replicate z 0).take k).map digitChar =
      (sd.take k).map digitChar ++ List.replicate (k - sd.length) '0' := by
  rw [List.take_append_eq_append_take, List.map_append, List.take_replicate,
    List.map_replicate, digitChar_zero]
  congr 2
  omega

theorem fmtF_zero (neg : Bool) (p : Nat) (hp : 0 < p) :
    fmtF neg ⟨[], 0⟩ p = (if neg then ['-'] else []) ++ fixedForm 0 p := by
  rw [fmtF_def']
  simp only [lt_self_iff_false, if_false, hp, if_true, fixedForm_zero]
  have := window_zero (decimal.at ⟨[], 0⟩) (fun i hi => at_neg _ _ _ hi) 0 0 (by simp)
  have hw : (List.range p).map (fun i => decimal.at ⟨[], 0⟩ ((0 : Int) + (i : Nat)))
      = List.replicate p '0' := by
    rw [List.eq_replicate_iff]
    refine ⟨by simp, fun c hc => ?_⟩
    simp only [List.mem_map, List.mem_range] at hc
    obtain ⟨i, _, rfl⟩ := hc
    rw [Int.zero_add, at_nat]
    rfl
  rw [hw]
  simp

theorem fmtF_small (neg : Bool) (ds : List Nat) (e : Int) (p : Nat) (hp : 0 < p)
    (h : e + p < 0) :
    fmtF neg ⟨ds, e⟩ p = (if neg then ['-'] else []) ++ fixedForm 0 p := by
  rw [fmtF_def']
  have he : ¬ (0 : Int) < e := by omega
  simp only [he, if_false, hp, if_true, fixedForm_zero]
  rw [window_zero (decimal.at ⟨ds, e⟩) (fun i hi => at_neg _ _ _ hi) e p (by omega)]
  simp

theorem fmtF_fixed_aux (neg : Bool) (K p : Nat) (E : Int) (hK : K ≠ 0) (hp : 0 < p)
    (hE : E = ((decDigits K).length : Int) - p) :
    fmtF neg ⟨stripZeros (decDigits K), E⟩ p =
      (if neg then ['-'] else []) ++ fixedForm K p := by
  obtain ⟨z, hz, _⟩ := stripZeros_spec (decDigits K)
  have hlen : (decDigits K).length = (stripZeros (decDigits K)).length + z := by
    conv_lhs => rw [hz]
    simp
  have hf0 : ∀ i : Int, i < 0 → decimal.at ⟨stripZeros (decDigits K), E⟩ i = '0' :=
    fun i hi => at_neg _ _ _ hi
  have hf : ∀ k : Nat, decimal.at ⟨stripZeros (decDigits K), E⟩ (k : Int)
      = ((decDigits K).map digitChar).getD k '0' := by
    intro k
    have h1 := at_append_zeros (stripZeros (decDigits K)) z E (k : Int)
    rw [← hz] at h1
    rw [h1, at_nat]
  rw [fixedForm_pos K p hK, fmtF_def']
  simp only [hp, if_true]
  by_cases hlt : p < (decDigits K).length
  · obtain ⟨a, ha⟩ : ∃ a : Nat, (decDigits K).length = a + p :=
      ⟨(decDigits K).length - p, by omega⟩
    have hEa : E = (a : Int) := by rw [hE, ha]; push_cast; omega
    subst hEa
    have hpos : (0 : Int) < (a : Int) := by omega
    have ha' : (decDigits K).length - p = a := by omega
    simp only [hpos, if_true, if_pos hlt, Int.toNat_ofNat, ha']
    have hint : ((decDigits K).map digitChar).take a
        = ((stripZeros (decDigits K)).take a).map digitChar
          ++ List.replicate (a - (stripZeros (decDigits K)).length) '0' := by
      rw [← List.map_take]
      conv_lhs => rw [hz]
      exact take_append_zeros_map _ z a (by omega)
    rw [hint, window_nonneg _ _ hf p a (by simp; omega)]
    simp
  · obtain ⟨w, hw⟩ : ∃ w : Nat, p = w + (decDigits K).length :=
      ⟨p - (decDigits K).length, by omega⟩
    have hEw : E = -(w : Int) := by rw [hE, hw]; push_cast; omega
    subst hEw
    have hpos : ¬ (0 : Int) < -(w : Int) := by omega
    have hw' : p - (decDigits K).length = w := by omega
    simp only [hpos, if_false, if_neg hlt, hw']
    rw [window_neg _ _ hf0 hf w p (by simp; omega)]
    simp

/-- Go `fmtF` on the digits of `K` with the decimal point `p` places from the
right prints `K` in fixed-point form. -/
theorem fmtF_fixed (neg : Bool) (K p : Nat) (hK : K ≠ 0) (hp : 0 < p) :
    fmtF neg ⟨stripZeros (decDigits K), ((decDigits K).length : Int) - p⟩ p =
      (if neg then ['-'] else []) ++ fixedForm K p :=
  fmtF_fixed_aux neg K p _ hK hp rfl

/-! ## `%.<p>f` is the correctly rounded fixed-point form -/

theorem Float64.den_pos (v : Float64) : 0 < v.den := by
  unfold Float64.den
  split <;> positivity

theorem Float64.num_mul_pow (v : Float64) :
    v.num * 10 ^ decimalScale v.exp = decimalNumerator v.mant v.exp * v.den := by
  unfold Float64.num Float64.den decimalNumerator decimalScale
  by_cases h : 0 ≤ v.exp
  · have : (-v.exp).toNat = 0 := by omega
    simp [h, this]
  · simp only [h, if_false]
    have : (10 : Nat) ^ (-v.exp).toNat = 5 ^ (-v.exp).toNat * 2 ^ (-v.exp).toNat := by
      rw [← Nat.mul_pow]
    rw [this]
    ring

/-- The scaled value `|v| × 10^t`, rounded, computed from the exact decimal. -/
theorem rounded_eq (v : Float64) (t : Nat) :
    divRoundHalfEven (v.num * 10 ^ t) v.den =
      divRoundHalfEven (decimalNumerator v.mant v.exp * 10 ^ t) (10 ^ decimalScale v.exp) := by
  apply divRoundHalfEven_congr _ _ _ _ v.den_pos (by positivity)
  have := v.num_mul_pow
  calc v.num * 10 ^ t * 10 ^ decimalScale v.exp
      = v.num * 10 ^ decimalScale v.exp * 10 ^ t := by ring
    _ = decimalNumerator v.mant v.exp * v.den * 10 ^ t := by rw [this]
    _ = decimalNumerator v.mant v.exp * 10 ^ t * v.den := by ring

theorem round_noop (ds : List Nat) (e n : Int) (h : n < 0 ∨ (ds.length : Int) ≤ n) :
    decimal.round ⟨ds, e⟩ n = ⟨ds, e⟩ := by
  unfold decimal.round
  rw [if_pos h]

/-- Go `strconv.FormatFloat(v, 'f', p, 64)` is the sign of `v` followed by the
fixed-point form of `|v| × 10^p` rounded to the nearest integer, an exact half
to the even neighbour. -/
theorem formatFloatF_eq (v : Float64) (p : Nat) (hp : 0 < p) :
    formatFloatF v p =
      (if v.neg then ['-'] else []) ++ fixedForm (divRoundHalfEven (v.num * 10 ^ p) v.den) p := by
  unfold formatFloatF
  simp only
  by_cases hm : v.mant = 0
  · have hnum : v.num = 0 := by simp [Float64.num, hm]
    rw [hm, decimal_init_zero, round_noop _ _ _ (Or.inr (by simp)), hnum, Nat.zero_mul,
      divRoundHalfEven_eq_zero 0 v.den (by have := v.den_pos; omega)]
    exact fmtF_zero v.neg p hp
  · rw [decimal_init_eq v.mant v.exp hm, rounded_eq]
    simp only
    set N := decimalNumerator v.mant v.exp with hN
    set s := decimalScale v.exp with hs
    have hN0 : N ≠ 0 := decimalNumerator_ne_zero v.mant v.exp hm
    have hvalid := validDigits_strip_decDigits N
    obtain ⟨z, hz, _⟩ := stripZeros_spec (decDigits N)
    set sd := stripZeros (decDigits N) with hsd
    have hL : (decDigits N).length = sd.length + z := by
      conv_lhs => rw [hz]
      simp
    have hNval : N = decValue sd * 10 ^ z := by
      conv_lhs => rw [← decValue_decDigits N, hz, decValue_append_zeros]
    have hbound := decDigits_length_bounds hN0
    by_cases hneg : ((decDigits N).length : Int) - s + p < 0
    · -- every digit lies beyond the `p`-th place: the value rounds to zero
      rw [round_noop _ _ _ (Or.inl hneg), fmtF_small _ _ _ _ hp hneg]
      have hK : divRoundHalfEven (N * 10 ^ p) (10 ^ s) = 0 := by
        apply divRoundHalfEven_eq_zero
        have h1 : N * 10 ^ p < 10 ^ ((decDigits N).length + p) := by
          rw [pow_add]
          exact Nat.mul_lt_mul_of_pos_right hbound.2 (by positivity)
        have h2 : 10 ^ ((decDigits N).length + p) * 10 ≤ 10 ^ s := by
          rw [← pow_succ]
          exact Nat.pow_le_pow_right (by norm_num) (by omega)
        omega
      rw [hK]
    · obtain ⟨n, hn⟩ : ∃ n : Nat, ((decDigits N).length : Int) - s + p = n :=
        ⟨(((decDigits N).length : Int) - s + p).toNat, by omega⟩
      rw [hn]
      have hsn : s + n = sd.length + z + p := by omega
      by_cases hle : sd.length ≤ n
      · -- no digit is cut: the value is a multiple of `10^-p`
        rw [round_noop _ _ _ (Or.inr (by exact_mod_cast hle))]
        have hK : divRoundHalfEven (N * 10 ^ p) (10 ^ s) = decValue sd * 10 ^ (n - sd.length) := by
          have : N * 10 ^ p = decValue sd * 10 ^ (n - sd.length) * 10 ^ s := by
            rw [hNval, Nat.mul_assoc, Nat.mul_assoc, ← pow_add, ← pow_add]
            congr 2
            omega
          rw [this]
          exact divRoundHalfEven_mul_self _ _ (by positivity)
        have hsd0 : decValue sd ≠ 0 := by
          intro h0
          rw [hNval, h0, Nat.zero_mul] at hN0
          exact hN0 rfl
        have hdig : decDigits (decValue sd * 10 ^ (n - sd.length))
            = sd ++ List.replicate (n - sd.length) 0 := by
          rw [decDigits_pow_mul _ _ hsd0, decDigits_decValue sd hvalid.lt hvalid.head]
        have hK0 : decValue sd * 10 ^ (n - sd.length) ≠ 0 :=
          Nat.mul_ne_zero hsd0 (by positivity)
        have key := fmtF_fixed_aux v.neg (decValue sd * 10 ^ (n - sd.length)) p
          (((decDigits N).length : Int) - s) hK0 hp
          (by rw [hdig]; simp only [List.length_append, List.length_replicate]; push_cast; omega)
        rw [hdig, stripZeros_append_zeros, stripZeros_of_last sd hvalid.last] at key
        rw [hK]
        exact key
      · -- the digits are cut at `n` and rounded
        have hnl : n < sd.length := by omega
        rw [round_eq sd _ n hvalid hnl]
        have hK : divRoundHalfEven (N * 10 ^ p) (10 ^ s)
            = divRoundHalfEven (decValue sd) (10 ^ (sd.length - n)) := by
          have h1 : N * 10 ^ p = decValue sd * 10 ^ (z + p) := by
            rw [hNval, Nat.mul_assoc, ← pow_add]
          have h2 : 10 ^ s = 10 ^ (sd.length - n) * 10 ^ (z + p) := by
            rw [← pow_add]
            congr 1
            omega
          rw [h1, h2]
          exact divRoundHalfEven_mul_right _ _ _ (by positivity)
        rw [hK]
        by_cases hR : divRoundHalfEven (decValue sd) (10 ^ (sd.length - n)) = 0
        · rw [if_pos hR, hR]
          exact fmtF_zero v.neg p hp
        · rw [if_neg hR]
          exact fmtF_fixed_aux v.neg _ p _ hR hp (by omega)

/-! ## `%.6g`: six significant digits -/

theorem divRoundHalfEven_bounds (a b : Nat) :
    a / b ≤ divRoundHalfEven a b ∧ divRoundHalfEven a b ≤ a / b + 1 := by
  unfold divRoundHalfEven
  simp only
  split <;> omega

theorem digitChar_ne_zero (d : Nat) (h0 : d ≠ 0) (hd : d < 10) : digitChar d ≠ '0' := by
  interval_cases d <;> first | exact absurd rfl h0 | decide

/-- Stripping the zero characters off the decimal numeral of `R` is stripping
the zero digits. -/
theorem chars_strip (R : Nat) (hR : R ≠ 0) :
    (Nat.toDigits 10 R).rdropWhile (· == '0') = (stripZeros (decDigits R)).map digitChar := by
  rw [toDigits_eq_map_digitChar R hR]
  obtain ⟨z, hz, hlast⟩ := stripZeros_spec (decDigits R)
  have hv := validDigits_strip_decDigits R
  conv_lhs => rw [hz, List.map_append, List.map_replicate, digitChar_zero]
  rw [rdropWhile_append_of_all _ _ _ (fun x hx => by rw [List.eq_of_mem_replicate hx]; rfl)]
  rw [List.rdropWhile_eq_self_iff]
  intro hne
  have hne' : stripZeros (decDigits R) ≠ [] := fun h => hne (by rw [h]; rfl)
  have h1 := hlast hne'
  have h2 := hv.lt _ (List.getLast_mem hne')
  have h3 := digitChar_ne_zero _ h1 h2
  have h4 : (List.map digitChar (stripZeros (decDigits R))).getLast hne
      = digitChar ((stripZeros (decDigits R)).getLast hne') := by
    simp [List.getLast_map]
  rw [h4]
  simpa using h3

theorem decDigits_length_eq {n k : Nat} (h1 : 10 ^ k ≤ n) (h2 : n < 10 ^ (k + 1)) :
    (decDigits n).length = k + 1 := by
  have hn : n ≠ 0 := by
    have : 0 < 10 ^ k := by positivity
    omega
  obtain ⟨b1, b2⟩ := decDigits_length_bounds hn
  have ha : k < (decDigits n).length :=
    (Nat.pow_lt_pow_iff_right (by norm_num : 1 < 10)).mp (lt_of_le_of_lt h1 b2)
  have hb : (decDigits n).length - 1 < k + 1 :=
    (Nat.pow_lt_pow_iff_right (by norm_num : 1 < 10)).mp (lt_of_le_of_lt b1 h2)
  omega

theorem pow_sandwich (N L m P : Nat) (hL : 0 < L) (hb1 : 10 ^ (L - 1) ≤ N) (hb2 : N < 10 ^ L) :
    (10 ^ P ≤ N * 10 ^ m ∧ N * 10 ^ m < 10 ^ (P + 1)) ↔ P + 1 = L + m := by
  have hpos : 0 < 10 ^ m := by positivity
  have hup : N * 10 ^ m < 10 ^ (L + m) := by
    rw [pow_add]
    exact Nat.mul_lt_mul_of_pos_right hb2 hpos
  have hlo : 10 ^ (L - 1 + m) ≤ N * 10 ^ m := by
    rw [pow_add]
    exact Nat.mul_le_mul_right _ hb1
  constructor
  · rintro ⟨h1, h2⟩
    have ha : P < L + m :=
      (Nat.pow_lt_pow_iff_right (by norm_num : 1 < 10)).mp (lt_of_le_of_lt h1 hup)
    have hb : L - 1 + m < P + 1 :=
      (Nat.pow_lt_pow_iff_right (by norm_num : 1 < 10)).mp (lt_of_le_of_lt hlo h2)
    omega
  · intro h
    have hP : P = L - 1 + m := by omega
    refine ⟨by rw [hP]; exact hlo, by rw [h]; exact hup⟩

/-- The decimal exponent of a non-zero double is the number of integer digits
of its exact decimal, minus one. -/
theorem isDecimalExponent_iff (v : Float64) (hm : v.mant ≠ 0) (X : Int) :
    IsDecimalExponent v X ↔
      X = ((decDigits (decimalNumerator v.mant v.exp)).length : Int) - 1
            - decimalScale v.exp := by
  have hN0 := decimalNumerator_ne_zero v.mant v.exp hm
  obtain ⟨hb1, hb2⟩ := decDigits_length_bounds hN0
  have hL : 0 < (decDigits (decimalNumerator v.mant v.exp)).length :=
    List.length_pos.mpr (decDigits_ne_nil hN0)
  have hden := v.den_pos
  have hrel := v.num_mul_pow
  have hspos : 0 < 10 ^ decimalScale v.exp := by positivity
  have e2 : v.num * 10 ^ (-X).toNat * 10 ^ decimalScale v.exp
      = v.den * (decimalNumerator v.mant v.exp * 10 ^ (-X).toNat) := by
    calc v.num * 10 ^ (-X).toNat * 10 ^ decimalScale v.exp
        = v.num * 10 ^ decimalScale v.exp * 10 ^ (-X).toNat := by ring
      _ = _ := by rw [hrel]; ring
  have e1 : v.den * 10 ^ X.toNat * 10 ^ decimalScale v.exp
      = v.den * 10 ^ (X.toNat + decimalScale v.exp) := by ring
  have e3 : v.den * 10 ^ (X.toNat + 1) * 10 ^ decimalScale v.exp
      = v.den * 10 ^ (X.toNat + decimalScale v.exp + 1) := by ring
  have key1 : v.den * 10 ^ X.toNat ≤ v.num * 10 ^ (-X).toNat ↔
      10 ^ (X.toNat + decimalScale v.exp)
        ≤ decimalNumerator v.mant v.exp * 10 ^ (-X).toNat := by
    constructor
    · intro h
      have h' := Nat.mul_le_mul_right (10 ^ decimalScale v.exp) h
      rw [e1, e2] at h'
      exact Nat.le_of_mul_le_mul_left h' hden
    · intro h
      have h' := Nat.mul_le_mul_left v.den h
      rw [← e1, ← e2] at h'
      exact Nat.le_of_mul_le_mul_right h' hspos
  have key2 : v.num * 10 ^ (-X).toNat < v.den * 10 ^ (X.toNat + 1) ↔
      decimalNumerator v.mant v.exp * 10 ^ (-X).toNat
        < 10 ^ (X.toNat + decimalScale v.exp + 1) := by
    constructor
    · intro h
      have h' := Nat.mul_lt_mul_of_pos_right h hspos
      rw [e3, e2] at h'
      exact Nat.lt_of_mul_lt_mul_left h'
    · intro h
      have h' := Nat.mul_lt_mul_of_pos_left h hden
      rw [← e3, ← e2] at h'
      exact Nat.lt_of_mul_lt_mul_right h'
  unfold IsDecimalExponent
  rw [key1, key2, pow_sandwich _ _ _ _ hL hb1 hb2]
  omega

/-- Every non-zero double has a decimal exponent. -/
theorem exists_decimalExponent (v : Float64) (hm : v.mant ≠ 0) : ∃ X, IsDecimalExponent v X :=
  ⟨_, (isDecimalExponent_iff v hm _).mpr rfl⟩

theorem sixSignificant_eq (v : Float64) (X : Int) :
    sixSignificant v X =
      divRoundHalfEven (decimalNumerator v.mant v.exp * 10 ^ (5 - X).toNat)
        (10 ^ decimalScale v.exp * 10 ^ (X - 5).toNat) := by
  unfold sixSignificant
  apply divRoundHalfEven_congr _ _ _ _ (Nat.mul_pos v.den_pos (by positivity)) (by positivity)
  have := v.num_mul_pow
  calc v.num * 10 ^ (5 - X).toNat * (10 ^ decimalScale v.exp * 10 ^ (X - 5).toNat)
      = v.num * 10 ^ decimalScale v.exp * (10 ^ (5 - X).toNat * 10 ^ (X - 5).toNat) := by ring
    _ = decimalNumerator v.mant v.exp * v.den
          * (10 ^ (5 - X).toNat * 10 ^ (X - 5).toNat) := by rw [this]
    _ = _ := by ring

/-- Rounding the exact decimal of `v` to six digits gives the digits of the six
significant digits of `v`; a carry out of `999999.5` and above moves the
decimal exponent up by one. -/
theorem round_six (v : Float64) (hm : v.mant ≠ 0) (X : Int)
    (hX : X = ((decDigits (decimalNumerator v.mant v.exp)).length : Int) - 1
            - decimalScale v.exp) :
    10 ^ 5 ≤ sixSignificant v X ∧ sixSignificant v X ≤ 10 ^ 6
      ∧ (decimal.init v.mant v.exp).round ((6 : Nat) : Int) =
          ⟨stripZeros (decDigits (sixSignificant v X)),
            (if sixSignificant v X = 10 ^ 6 then X + 1 else X) + 1⟩ := by
  rw [decimal_init_eq v.mant v.exp hm, sixSignificant_eq]
  set N := decimalNumerator v.mant v.exp with hN
  set s := decimalScale v.exp with hs
  have hN0 : N ≠ 0 := decimalNumerator_ne_zero v.mant v.exp hm
  have hvalid := validDigits_strip_decDigits N
  obtain ⟨z, hz, _⟩ := stripZeros_spec (decDigits N)
  have hsdne := stripZeros_decDigits_ne_nil hN0
  set sd := stripZeros (decDigits N) with hsd
  have hL : (decDigits N).length = sd.length + z := by
    conv_lhs => rw [hz]
    simp
  have hNval : N = decValue sd * 10 ^ z := by
    conv_lhs => rw [← decValue_decDigits N, hz, decValue_append_zeros]
  have hl0 : 0 < sd.length := List.length_pos.mpr hsdne
  have hD1 : 10 ^ (sd.length - 1) ≤ decValue sd :=
    decValue_pos_of_head sd hsdne (hvalid.head hsdne)
  have hD2 : decValue sd < 10 ^ sd.length := decValue_lt sd hvalid.lt
  have hnum : N * 10 ^ (5 - X).toNat = decValue sd * 10 ^ (z + (5 - X).toNat) := by
    rw [hNval, Nat.mul_assoc, ← pow_add]
  rw [hnum, ← pow_add]
  by_cases hle : sd.length ≤ 6
  · -- at most six digits: nothing is cut
    have hden : s + (X - 5).toNat + (6 - sd.length) = z + (5 - X).toNat := by omega
    have hK : divRoundHalfEven (decValue sd * 10 ^ (z + (5 - X).toNat))
        (10 ^ (s + (X - 5).toNat)) = decValue sd * 10 ^ (6 - sd.length) := by
      have : decValue sd * 10 ^ (z + (5 - X).toNat)
          = decValue sd * 10 ^ (6 - sd.length) * 10 ^ (s + (X - 5).toNat) := by
        rw [Nat.mul_assoc, ← pow_add]
        congr 2
        omega
      rw [this]
      exact divRoundHalfEven_mul_self _ _ (by positivity)
    rw [hK]
    have hsd0 : decValue sd ≠ 0 := by
      have : 0 < 10 ^ (sd.length - 1) := by positivity
      omega
    have hlo : 10 ^ 5 ≤ decValue sd * 10 ^ (6 - sd.length) := by
      calc 10 ^ 5 = 10 ^ (sd.length - 1) * 10 ^ (6 - sd.length) := by
            rw [← pow_add]; congr 1; omega
        _ ≤ _ := Nat.mul_le_mul_right _ hD1
    have hhi : decValue sd * 10 ^ (6 - sd.length) < 10 ^ 6 := by
      calc decValue sd * 10 ^ (6 - sd.length) < 10 ^ sd.length * 10 ^ (6 - sd.length) :=
            Nat.mul_lt_mul_of_pos_right hD2 (by positivity)
        _ = 10 ^ 6 := by rw [← pow_add]; congr 1; omega
    refine ⟨hlo, le_of_lt hhi, ?_⟩
    rw [round_noop _ _ _ (Or.inr (by exact_mod_cast hle)), if_neg (ne_of_lt hhi),
      decDigits_pow_mul _ _ hsd0, decDigits_decValue sd hvalid.lt hvalid.head,
      stripZeros_append_zeros, stripZeros_of_last sd hvalid.last]
    congr 1
    omega
  · -- more than six digits: the seventh decides
    have hgt : 6 < sd.length := by omega
    have hK : divRoundHalfEven (decValue sd * 10 ^ (z + (5 - X).toNat))
        (10 ^ (s + (X - 5).toNat))
          = divRoundHalfEven (decValue sd) (10 ^ (sd.length - 6)) := by
      have h2 : 10 ^ (s + (X - 5).toNat)
          = 10 ^ (sd.length - 6) * 10 ^ (z + (5 - X).toNat) := by
        rw [← pow_add]
        congr 1
        omega
      rw [h2]
      exact divRoundHalfEven_mul_right _ _ _ (by positivity)
    rw [hK]
    obtain ⟨hq1, hq2⟩ := divRoundHalfEven_bounds (decValue sd) (10 ^ (sd.length - 6))
    have hpos : 0 < 10 ^ (sd.length - 6) := by positivity
    have hqlo : 10 ^ 5 ≤ decValue sd / 10 ^ (sd.length - 6) := by
      rw [Nat.le_div_iff_mul_le hpos, ← pow_add]
      have : 5 + (sd.length - 6) = sd.length - 1 := by omega
      rw [this]
      exact hD1
    have hqhi : decValue sd / 10 ^ (sd.length - 6) < 10 ^ 6 := by
      rw [Nat.div_lt_iff_lt_mul hpos, ← pow_add]
      have : 6 + (sd.length - 6) = sd.length := by omega
      rw [this]
      exact hD2
    set R := divRoundHalfEven (decValue sd) (10 ^ (sd.length - 6)) with hR
    have hR0 : R ≠ 0 := by omega
    refine ⟨by omega, by omega, ?_⟩
    rw [round_eq sd _ 6 hvalid hgt, if_neg hR0]
    congr 1
    by_cases h6 : R = 10 ^ 6
    · rw [if_pos h6]
      have : (decDigits R).length = 7 := by
        rw [h6]
        exact decDigits_length_eq (le_refl _) (by norm_num)
      rw [this]
      omega
    · rw [if_neg h6]
      have : (decDigits R).length = 6 := decDigits_length_eq (by omega) (by omega)
      rw [this]
      omega

theorem fmtE_digits (neg : Bool) (ds : List Nat) (E : Int) (hne : ds ≠ []) :
    fmtE neg ⟨ds, E + 1⟩ (ds.length - 1) =
      (if neg then ['-'] else [])
        ++ ((ds.map digitChar).take 1
          ++ (if 1 < (ds.map digitChar).length then '.' :: (ds.map digitChar).drop 1 else [])
          ++ ['e', if E < 0 then '-' else '+']
          ++ (if E.natAbs < 10 then '0' :: Nat.toDigits 10 E.natAbs
              else Nat.toDigits 10 E.natAbs)) := by
  rw [fmtE_def']
  have hemp : ds.isEmpty = false := by
    cases ds with
    | nil => exact absurd rfl hne
    | cons x t => rfl
  have hexp : (E + 1 - 1 : Int) = E := by omega
  have hf : ∀ k : Nat, decimal.at ⟨ds, E + 1⟩ (k : Int) = (ds.map digitChar).getD k '0' :=
    fun k => at_nat ds _ k
  have h0 : [decimal.at ⟨ds, E + 1⟩ 0] = (ds.map digitChar).take 1 := by
    have := hf 0
    rw [Nat.cast_zero] at this
    rw [this]
    cases ds with
    | nil => exact absurd rfl hne
    | cons x t => rfl
  have hw : (List.range (ds.length - 1)).map
      (fun i => decimal.at ⟨ds, E + 1⟩ (1 + (i : Nat))) = (ds.map digitChar).drop 1 := by
    have := window_nonneg (decimal.at ⟨ds, E + 1⟩) (ds.map digitChar) hf (ds.length - 1) 1
      (by
        have : 0 < ds.length := List.length_pos.mpr hne
        simp only [List.length_map]
        omega)
    simpa using this
  simp only [hemp, Bool.false_eq_true, if_false, hexp, h0, hw, List.length_map]
  have hiff : (0 < ds.length - 1) ↔ (1 < ds.length) := by omega
  simp only [hiff, List.append_assoc]

theorem fmtF_digits_pos (neg : Bool) (ds : List Nat) (a : Nat) (ha : 0 < a) :
    fmtF neg ⟨ds, (a : Int)⟩ (ds.length - a) =
      (if neg then ['-'] else [])
        ++ ((ds.map digitChar).take a
          ++ List.replicate (a - (ds.map digitChar).length) '0'
          ++ (if a < (ds.map digitChar).length then '.' :: (ds.map digitChar).drop a
              else [])) := by
  rw [fmtF_def']
  have hpos : (0 : Int) < (a : Int) := by omega
  have hf : ∀ k : Nat, decimal.at ⟨ds, (a : Int)⟩ (k : Int) = (ds.map digitChar).getD k '0' :=
    fun k => at_nat ds _ k
  simp only [hpos, if_true, Int.toNat_ofNat, List.length_map, List.map_take]
  by_cases hlt : a < ds.length
  · have h1 : 0 < ds.length - a := by omega
    rw [if_pos h1, if_pos hlt,
      window_nonneg _ _ hf (ds.length - a) a (by simp only [List.length_map]; omega)]
    simp only [List.append_assoc]
  · have h1 : ¬ 0 < ds.length - a := by omega
    rw [if_neg h1, if_neg hlt]
    simp only [List.append_assoc]

theorem fmtF_digits_neg (neg : Bool) (ds : List Nat) (w : Nat) (hne : ds ≠ []) :
    fmtF neg ⟨ds, -(w : Int)⟩ (w + ds.length) =
      (if neg then ['-'] else [])
        ++ ('0' :: '.' :: List.replicate w '0' ++ ds.map digitChar) := by
  rw [fmtF_def']
  have hpos : ¬ (0 : Int) < -(w : Int) := by omega
  have hp : 0 < w + ds.length := by
    have : 0 < ds.length := List.length_pos.mpr hne
    omega
  have hf : ∀ k : Nat, decimal.at ⟨ds, -(w : Int)⟩ (k : Int) = (ds.map digitChar).getD k '0' :=
    fun k => at_nat ds _ k
  simp only [hpos, if_false, hp, if_true]
  rw [window_neg _ _ (fun i hi => at_neg _ _ _ hi) hf w (w + ds.length) (by simp)]
  simp

theorem stripZeros_length_le (l : List Nat) : (stripZeros l).length ≤ l.length := by
  obtain ⟨k, hk, _⟩ := stripZeros_spec l
  conv_rhs => rw [hk]
  simp

theorem stripZeros_sixSignificant_length (R : Nat) (h5 : 10 ^ 5 ≤ R) (h6 : R ≤ 10 ^ 6) :
    (stripZeros (decDigits R)).length ≤ 6 := by
  by_cases h : R = 10 ^ 6
  · have h1 : (1 : Nat) :: List.replicate 6 0 = [1] ++ List.replicate 6 0 := rfl
    rw [h, decDigits_pow, h1, stripZeros_append_zeros]
    exact le_trans (stripZeros_length_le [1]) (by simp)
  · have : (decDigits R).length = 6 := decDigits_length_eq h5 (by omega)
    exact this ▸ stripZeros_length_le (decDigits R)

/-- Go `strconv.FormatFloat(v, 'g', 6, 64)` of a non-zero `v` with decimal
exponent `X` is the compact form of its six significant digits. -/
theorem formatFloatG_eq (v : Float64) (hm : v.mant ≠ 0) (X : Int)
    (hX : IsDecimalExponent v X) : formatFloatG v 6 = compactSix v X := by
  have hX' := (isDecimalExponent_iff v hm X).mp hX
  obtain ⟨h5, h6, hround⟩ := round_six v hm X hX'
  have h60 : (if (6 : Nat) = 0 then 1 else 6) = 6 := rfl
  have hR0 : sixSignificant v X ≠ 0 := by
    have : 0 < 10 ^ 5 := by norm_num
    omega
  have hne := stripZeros_decDigits_ne_nil hR0
  have hlen6 := stripZeros_sixSignificant_length _ h5 h6
  unfold formatFloatG compactSix compactForm
  simp only [h60]
  rw [hround]
  simp only []
  rw [chars_strip _ hR0]
  generalize (if sixSignificant v X = 10 ^ 6 then X + 1 else X) = X1
  generalize stripZeros (decDigits (sixSignificant v X)) = ds at hne hlen6 ⊢
  have hpos : 0 < ds.length := List.length_pos.mpr hne
  have he1 : X1 + 1 - 1 = X1 := by omega
  simp only [he1, Nat.cast_ofNat, List.length_map]
  by_cases hE : X1 < -4 ∨ 6 ≤ X1
  · have hc : X1 < -4 ∨ (if ds.length < 6 ∧ X1 + 1 ≤ (ds.length : Int)
        then (ds.length : Int) else 6) ≤ X1 := by
      rcases hE with h | h
      · exact Or.inl h
      · right
        split_ifs <;> omega
    have hp : (if ds.length < 6 then ds.length else 6) - 1 = ds.length - 1 := by
      split_ifs <;> omega
    rw [if_pos hc, if_pos hE, hp, fmtE_digits _ _ _ hne]
    simp only [List.length_map, List.append_assoc]
  · have hc : ¬ (X1 < -4 ∨ (if ds.length < 6 ∧ X1 + 1 ≤ (ds.length : Int)
        then (ds.length : Int) else 6) ≤ X1) := by
      intro h
      rcases h with h | h
      · exact hE (Or.inl h)
      · split_ifs at h <;> omega
    rw [if_neg hc, if_neg hE]
    by_cases h0 : 0 ≤ X1
    · rw [if_pos h0]
      obtain ⟨a, ha⟩ : ∃ a : Nat, a = X1.toNat + 1 := ⟨_, rfl⟩
      have hXa : X1 + 1 = (a : Int) := by omega
      have hp : ((if (a : Int) < 6 then (ds.length : Int) else 6) - (a : Int)).toNat
          = ds.length - a := by
        split_ifs <;> omega
      rw [← ha, hXa, hp, fmtF_digits_pos _ _ _ (by omega)]
      simp only [List.length_map, List.append_assoc]
    · rw [if_neg h0]
      obtain ⟨w, hw⟩ : ∃ w : Nat, w = (-X1).toNat - 1 := ⟨_, rfl⟩
      have hXw : X1 + 1 = -(w : Int) := by omega
      have hp : ((if -(w : Int) < 6 then (ds.length : Int) else 6) - -(w : Int)).toNat
          = w + ds.length := by
        split_ifs <;> omega
      rw [← hw, hXw, hp, fmtF_digits_neg _ _ _ hne]

/-- Go `strconv.FormatFloat(v, 'g', 6, 64)` of a zero is `0`, after the sign. -/
theorem formatFloatG_zero (neg : Bool) (exp : Int) :
    formatFloatG ⟨neg, 0, exp⟩ 6 = (if neg then ['-'] else []) ++ ['0'] := by
  unfold formatFloatG
  simp only [decimal_init_zero]
  cases neg <;> rfl

/-! ## The `wallet` and `scan_contract` cases -/

theorem walletBranch_unconfigured (W : World) (chain addr : Str)
    (hrpc : getRPC W.unicode W.getenv chain = []) :
    walletBranch W chain addr =
      ⟨"RPC URL for chain '".data ++ chain ++ "' not configured in .env".data, none, []⟩ := by
  simp only [walletBranch, hrpc, if_true]

theorem scanBranch_unconfigured (W : World) (chain addr : Str)
    (hrpc : getRPC W.unicode W.getenv chain = []) :
    scanBranch W chain addr =
      ⟨"RPC URL for chain '".data ++ chain ++ "' not configured in .env".data, none, []⟩ := by
  simp only [scanBranch, hrpc, if_true]

theorem walletBranch_invalid (W : World) (chain addr : Str)
    (hrpc : getRPC W.unicode W.getenv chain ≠ []) (haddr : IsHexAddress addr = false) :
    walletBranch W chain addr = ⟨"Invalid address format. Expected 0x...".data, none, []⟩ := by
  simp [walletBranch, hrpc, haddr]

theorem scanBranch_invalid (W : World) (chain addr : Str)
    (hrpc : getRPC W.unicode W.getenv chain ≠ []) (haddr : IsHexAddress addr = false) :
    scanBranch W chain addr = ⟨"Invalid address format. Expected 0x...".data, none, []⟩ := by
  simp [scanBranch, hrpc, haddr]

theorem walletBranch_valid (W : World) (chain addr : Str)
    (hrpc : getRPC W.unicode W.getenv chain ≠ []) (haddr : IsHexAddress addr = true) :
    walletBranch W chain addr =
      match (ethBalance W (getRPC W.unicode W.getenv chain) addr).err with
      | some err =>
        ⟨[], some err, Event.ethBalance (getRPC W.unicode W.getenv chain) addr
          :: (ethBalance W (getRPC W.unicode W.getenv chain) addr).log⟩
      | none =>
        ⟨"[".data ++ ToUpper W.unicode chain ++ "] Balance ".data ++ addr ++ ": ".data
            ++ (ethBalance W (getRPC W.unicode W.getenv chain) addr).display, none,
          Event.ethBalance (getRPC W.unicode W.getenv chain) addr
            :: (ethBalance W (getRPC W.unicode W.getenv chain) addr).log⟩ := by
  simp only [walletBranch, if_neg hrpc, haddr, Bool.not_true, Bool.false_eq_true, if_false]

theorem scanBranch_valid (W : World) (chain addr : Str)
    (hrpc : getRPC W.unicode W.getenv chain ≠ []) (haddr : IsHexAddress addr = true) :
    scanBranch W chain addr =
      match (isContract W (getRPC W.unicode W.getenv chain) addr).err with
      | some err =>
        ⟨[], some err, Event.isContract (getRPC W.unicode W.getenv chain) addr
          :: (isContract W (getRPC W.unicode W.getenv chain) addr).log⟩
      | none =>
        ⟨"[".data ++ ToUpper W.unicode chain ++ "] ".data ++ addr ++ " ".data
            ++ (if !(isContract W (getRPC W.unicode W.getenv chain) addr).contract
                then "is NOT a contract".data else "is a contract".data)
            ++ " (code size = ".data
            ++ Nat.toDigits 10 (isContract W (getRPC W.unicode W.getenv chain) addr).size
            ++ " bytes)".data, none,
          Event.isContract (getRPC W.unicode W.getenv chain) addr
            :: (isContract W (getRPC W.unicode W.getenv chain) addr).log⟩ := by
  simp only [scanBranch, if_neg hrpc, haddr, Bool.not_true, Bool.false_eq_true, if_false]

/-- A `wallet` or `scan_contract` command runs the case of its command on the
chain and address chosen from its arguments. -/
theorem ProcessTask_chain_command (W : World) (task part0 : Str) (args : List Str)
    (chain addr : Str)
    (hparts : taskParts task = part0 :: args)
    (hcmd : ToLower W.unicode part0 = "wallet".data
      ∨ ToLower W.unicode part0 = "scan_contract".data)
    (hargs : (args = [addr] ∧ chain = "eth".data)
      ∨ ∃ (a0 : Str) (rest : List Str), args = a0 :: addr :: rest
          ∧ chain = ToLower W.unicode a0) :
    (ToLower W.unicode part0 = "wallet".data ∧ ProcessTask W task = walletBranch W chain addr)
      ∨ (ToLower W.unicode part0 = "scan_contract".data
          ∧ ProcessTask W task = scanBranch W chain addr) := by
  have hsel : chainAndAddr W.unicode args = some (chain, addr) := by
    rcases hargs with ⟨rfl, rfl⟩ | ⟨a0, rest, rfl, rfl⟩ <;> rfl
  rcases hcmd with hcmd | hcmd
  · left
    refine ⟨hcmd, ?_⟩
    rw [ProcessTask_wallet W task part0 args hparts hcmd, hsel]
  · right
    refine ⟨hcmd, ?_⟩
    rw [ProcessTask_scan W task part0 args hparts hcmd, hsel]

/-! ## C5: unknown commands -/

/-- C5. For every task whose first token (after trimming and stripping one
leading `/`), lower-cased, is none of `price`, `wallet`, `scan_contract`,
`ProcessTask` returns, with a nil error and an empty event log, the response
`Unknown command '<name>'. Available commands: price, wallet, scan_contract`
where `<name>` is the lower-cased first token; any other task with the same
first token gets the same response, whatever its remaining tokens. -/
theorem c5_unknown_command (W : World) (task tok : Str) (rest : List Str)
    (hparts : taskParts task = tok :: rest)
    (hname : ToLower W.unicode tok ∉ commandNames) :
    (ProcessTask W task).response =
        "Unknown command '".data ++ ToLower W.unicode tok
          ++ "'. Available commands: price, wallet, scan_contract".data
      ∧ (ProcessTask W task).err = none
      ∧ (ProcessTask W task).log = []
      ∧ ∀ (task' : Str) (rest' : List Str), taskParts task' = tok :: rest' →
          (ProcessTask W task').response = (ProcessTask W task).response := by
  refine ⟨?_, ?_, ?_, ?_⟩
  · rw [ProcessTask_unknown W task tok rest hparts hname]
  · rw [ProcessTask_unknown W task tok rest hparts hname]
  · rw [ProcessTask_unknown W task tok rest hparts hname]
  · intro task' rest' h'
    rw [ProcessTask_unknown W task tok rest hparts hname,
      ProcessTask_unknown W task' tok rest' h' hname]

/-- Witness of C5: the task `  /Transfer 5 eth ` names the unknown command `transfer`. -/
theorem c5_unknown_command_witness :
    taskParts "  /Transfer 5 eth ".data = ["Transfer".data, "5".data, "eth".data]
      ∧ (ProcessTask worldUnconfigured "  /Transfer 5 eth ".data).response =
        "Unknown command 'transfer'. Available commands: price, wallet, scan_contract".data
      ∧ (ProcessTask worldUnconfigured "  /Transfer 5 eth ".data).log = [] := by
  have h := c5_unknown_command worldUnconfigured "  /Transfer 5 eth ".data "Transfer".data
    ["5".data, "eth".data] (by decide) (by decide)
  exact ⟨by decide, h.1, h.2.2.1⟩

/-! ## C3: unconfigured chains -/

/-- C3, as amended. For every `wallet` or `scan_contract` command whose chain,
which is `eth` when one argument is given and the first argument LOWER-CASED
when two or more are given, resolves through `getRPC` to the empty string,
`ProcessTask` returns, with a nil error and an empty event log (neither
`ethBalance` nor `isContract` is called), the response
`RPC URL for chain '<chain>' not configured in .env`, whatever the address is. -/
theorem c3_unconfigured_chain (W : World) (task part0 : Str) (args : List Str)
    (chain addr : Str)
    (hparts : taskParts task = part0 :: args)
    (hcmd : ToLower W.unicode part0 = "wallet".data
      ∨ ToLower W.unicode part0 = "scan_contract".data)
    (hargs : (args = [addr] ∧ chain = "eth".data)
      ∨ ∃ (a0 : Str) (rest : List Str), args = a0 :: addr :: rest
          ∧ chain = ToLower W.unicode a0)
    (hrpc : getRPC W.unicode W.getenv chain = []) :
    (ProcessTask W task).response =
        "RPC URL for chain '".data ++ chain ++ "' not configured in .env".data
      ∧ (ProcessTask W task).err = none
      ∧ (ProcessTask W task).log = [] := by
  rcases ProcessTask_chain_command W task part0 args chain addr hparts hcmd hargs with
    ⟨_, h⟩ | ⟨_, h⟩
  · rw [h, walletBranch_unconfigured W chain addr hrpc]
    exact ⟨rfl, rfl, rfl⟩
  · rw [h, scanBranch_unconfigured W chain addr hrpc]
    exact ⟨rfl, rfl, rfl⟩

/-- Witness of C3: `scan_contract Polygon 0x12` where only `ETH_RPC_URL` and
`BASE_RPC_URL` are set. -/
theorem c3_unconfigured_chain_witness :
    (ProcessTask (worldWith 0 [] (.error [])) "scan_contract Polygon 0x12".data).response =
        "RPC URL for chain 'polygon' not configured in .env".data
      ∧ (ProcessTask (worldWith 0 [] (.error [])) "scan_contract Polygon 0x12".data).err = none
      ∧ (ProcessTask (worldWith 0 [] (.error [])) "scan_contract Polygon 0x12".data).log = [] :=
  c3_unconfigured_chain (worldWith 0 [] (.error [])) "scan_contract Polygon 0x12".data
    "scan_contract".data ["Polygon".data, "0x12".data] "polygon".data "0x12".data
    (by decide) (Or.inr (by decide))
    (Or.inr ⟨"Polygon".data, [], rfl, by decide⟩) (by decide)

/-- Counterexample to C3 as stated: for `wallet BSC <address>` with no endpoint
for `bsc`, the chain is the first argument `BSC` and resolves to the empty
string, but the response names `bsc`, not `BSC`; this on every Go runtime,
whatever its case tables. -/
theorem c3_counterexample :
    taskParts "wallet BSC 0xABCDEF0000000000000000000000000000000001".data =
        ["wallet".data, "BSC".data, "0xABCDEF0000000000000000000000000000000001".data]
      ∧ (∀ T : CaseTables, getRPC T sampleEnv "BSC".data = [])
      ∧ (∀ T : CaseTables,
          (ProcessTask ((worldWith 0 [] (.error [])).withTables T)
            "wallet BSC 0xABCDEF0000000000000000000000000000000001".data).response =
          "RPC URL for chain 'bsc' not configured in .env".data)
      ∧ (∀ T : CaseTables,
          (ProcessTask ((worldWith 0 [] (.error [])).withTables T)
            "wallet BSC 0xABCDEF0000000000000000000000000000000001".data).response ≠
          "RPC URL for chain 'BSC' not configured in .env".data) := by
  have h : ∀ T : CaseTables,
      (ProcessTask ((worldWith 0 [] (.error [])).withTables T)
        "wallet BSC 0xABCDEF0000000000000000000000000000000001".data).response =
      "RPC URL for chain 'bsc' not configured in .env".data := fun _ => rfl
  refine ⟨by decide, fun _ => rfl, h, fun T => ?_⟩
  rw [h T]
  decide

/-! ## C1: malformed addresses -/

/-- C1, as amended. For every address argument that `common.IsHexAddress`
rejects, that is, every address that is not 40 hexadecimal digits optionally
preceded by `0x` or `0X`, `ProcessTask` on a `wallet` or `scan_contract`
command returns a nil error and an empty event log (neither `ethBalance` nor
`isContract` is called) for every chain; the response is
`Invalid address format. Expected 0x...` when the chain resolves to a configured
endpoint, and the not-configured response when it does not. -/
theorem c1_invalid_address (W : World) (task part0 : Str) (args : List Str)
    (chain addr : Str)
    (hparts : taskParts task = part0 :: args)
    (hcmd : ToLower W.unicode part0 = "wallet".data
      ∨ ToLower W.unicode part0 = "scan_contract".data)
    (hargs : (args = [addr] ∧ chain = "eth".data)
      ∨ ∃ (a0 : Str) (rest : List Str), args = a0 :: addr :: rest
          ∧ chain = ToLower W.unicode a0)
    (haddr : ¬ (isHex40 addr = true
      ∨ ∃ (p : Char) (body : Str), (p = 'x' ∨ p = 'X') ∧ addr = '0' :: p :: body
          ∧ isHex40 body = true)) :
    (ProcessTask W task).err = none
      ∧ (ProcessTask W task).log = []
      ∧ (getRPC W.unicode W.getenv chain ≠ [] →
          (ProcessTask W task).response = "Invalid address format. Expected 0x...".data)
      ∧ (getRPC W.unicode W.getenv chain = [] →
          (ProcessTask W task).response =
            "RPC URL for chain '".data ++ chain ++ "' not configured in .env".data) := by
  have hrej : IsHexAddress addr = false := by
    rw [← Bool.not_eq_true, IsHexAddress_iff]
    exact haddr
  by_cases hrpc : getRPC W.unicode W.getenv chain = []
  · rcases ProcessTask_chain_command W task part0 args chain addr hparts hcmd hargs with
      ⟨_, h⟩ | ⟨_, h⟩
    · rw [h, walletBranch_unconfigured W chain addr hrpc]
      exact ⟨rfl, rfl, fun hne => absurd hrpc hne, fun _ => rfl⟩
    · rw [h, scanBranch_unconfigured W chain addr hrpc]
      exact ⟨rfl, rfl, fun hne => absurd hrpc hne, fun _ => rfl⟩
  · rcases ProcessTask_chain_command W task part0 args chain addr hparts hcmd hargs with
      ⟨_, h⟩ | ⟨_, h⟩
    · rw [h, walletBranch_invalid W chain addr hrpc hrej]
      exact ⟨rfl, rfl, fun _ => rfl, fun he => absurd he hrpc⟩
    · rw [h, scanBranch_invalid W chain addr hrpc hrej]
      exact ⟨rfl, rfl, fun _ => rfl, fun he => absurd he hrpc⟩

/-- Witness of C1: `wallet base 0x12` with `BASE_RPC_URL` set. -/
theorem c1_invalid_address_witness :
    (ProcessTask (worldWith 7 [] (.error [])) "wallet base 0x12".data).err = none
      ∧ (ProcessTask (worldWith 7 [] (.error [])) "wallet base 0x12".data).log = []
      ∧ (ProcessTask (worldWith 7 [] (.error [])) "wallet base 0x12".data).response =
          "Invalid address format. Expected 0x...".data := by
  have h := c1_invalid_address (worldWith 7 [] (.error [])) "wallet base 0x12".data
    "wallet".data ["base".data, "0x12".data] "base".data "0x12".data
    (by decide) (Or.inl (by decide)) (Or.inr ⟨"base".data, [], rfl, by decide⟩)
    (by
      rw [← IsHexAddress_iff]
      decide)
  exact ⟨h.1, h.2.1, h.2.2.1 (by decide)⟩

set_option maxRecDepth 100000 in
/-- Counterexample to C1 as stated, on every Go runtime (whatever its case
tables). (1) `wallet bsc 0x123`: the address is not `0x` followed by 40
hexadecimal digits, yet the response is the not-configured one, because the
endpoint is looked up first. (2) `wallet` followed by 40 hexadecimal digits
without `0x`: the address does not fit the pattern either, yet
`common.IsHexAddress` accepts it, `ethBalance` is called and the node is queried. -/
theorem c1_counterexample :
    (matches0x40 "0x123".data = false
      ∧ ∀ T : CaseTables,
          (ProcessTask ((worldWith 7 [] (.error [])).withTables T)
            "wallet bsc 0x123".data).response =
          "RPC URL for chain 'bsc' not configured in .env".data)
    ∧ (matches0x40 "ABCDEF0000000000000000000000000000000001".data = false
      ∧ IsHexAddress "ABCDEF0000000000000000000000000000000001".data = true
      ∧ (∀ T : CaseTables,
          (ProcessTask ((worldWith 7 [] (.error [])).withTables T)
            "wallet ABCDEF0000000000000000000000000000000001".data).log =
          [Event.ethBalance "http://eth.node".data
              "ABCDEF0000000000000000000000000000000001".data,
            Event.dial "http://eth.node".data,
            Event.balanceAt "http://eth.node".data
              "ABCDEF0000000000000000000000000000000001".data])
      ∧ (∀ T : CaseTables,
          (ProcessTask ((worldWith 7 [] (.error [])).withTables T)
            "wallet ABCDEF0000000000000000000000000000000001".data).response =
          "[ETH] Balance ABCDEF0000000000000000000000000000000001: 0.000000000000000007 ETH".data)) :=
  ⟨⟨by decide, fun _ => rfl⟩, by decide, by decide, fun _ => rfl, fun _ => rfl⟩

/-! ## C2: errors are exactly the helpers' errors -/

theorem walletBranch_err (W : World) (chain addr : Str) :
    (walletBranch W chain addr).err =
      if getRPC W.unicode W.getenv chain ≠ [] ∧ IsHexAddress addr = true then
        (ethBalance W (getRPC W.unicode W.getenv chain) addr).err
      else none := by
  by_cases hrpc : getRPC W.unicode W.getenv chain = []
  · rw [walletBranch_unconfigured W chain addr hrpc, if_neg (fun h => h.1 hrpc)]
  · rcases Bool.eq_false_or_eq_true (IsHexAddress addr) with haddr | haddr
    · rw [walletBranch_valid W chain addr hrpc haddr, if_pos (And.intro hrpc haddr)]
      cases (ethBalance W (getRPC W.unicode W.getenv chain) addr).err <;> rfl
    · rw [walletBranch_invalid W chain addr hrpc haddr,
        if_neg (fun h => by rw [haddr] at h; exact absurd h.2 (by decide))]

theorem scanBranch_err (W : World) (chain addr : Str) :
    (scanBranch W chain addr).err =
      if getRPC W.unicode W.getenv chain ≠ [] ∧ IsHexAddress addr = true then
        (isContract W (getRPC W.unicode W.getenv chain) addr).err
      else none := by
  by_cases hrpc : getRPC W.unicode W.getenv chain = []
  · rw [scanBranch_unconfigured W chain addr hrpc, if_neg (fun h => h.1 hrpc)]
  · rcases Bool.eq_false_or_eq_true (IsHexAddress addr) with haddr | haddr
    · rw [scanBranch_valid W chain addr hrpc haddr, if_pos (And.intro hrpc haddr)]
      cases (isContract W (getRPC W.unicode W.getenv chain) addr).err <;> rfl
    · rw [scanBranch_invalid W chain addr hrpc haddr,
        if_neg (fun h => by rw [haddr] at h; exact absurd h.2 (by decide))]

theorem walletBranch_response (W : World) (chain addr : Str) :
    ((walletBranch W chain addr).err ≠ none → (walletBranch W chain addr).response = [])
      ∧ ((walletBranch W chain addr).err = none → (walletBranch W chain addr).response ≠ []) := by
  by_cases hrpc : getRPC W.unicode W.getenv chain = []
  · rw [walletBranch_unconfigured W chain addr hrpc]
    exact ⟨fun h => absurd rfl h, fun _ => by simp⟩
  · cases haddr : IsHexAddress addr with
    | false =>
      rw [walletBranch_invalid W chain addr hrpc haddr]
      exact ⟨fun h => absurd rfl h, fun _ => by simp⟩
    | true =>
      rw [walletBranch_valid W chain addr hrpc haddr]
      cases (ethBalance W (getRPC W.unicode W.getenv chain) addr).err with
      | none => exact ⟨fun h => absurd rfl h, fun _ => by simp⟩
      | some e => exact ⟨fun _ => rfl, fun h => by simp at h⟩

theorem scanBranch_response (W : World) (chain addr : Str) :
    ((scanBranch W chain addr).err ≠ none → (scanBranch W chain addr).response = [])
      ∧ ((scanBranch W chain addr).err = none → (scanBranch W chain addr).response ≠ []) := by
  by_cases hrpc : getRPC W.unicode W.getenv chain = []
  · rw [scanBranch_unconfigured W chain addr hrpc]
    exact ⟨fun h => absurd rfl h, fun _ => by simp⟩
  · cases haddr : IsHexAddress addr with
    | false =>
      rw [scanBranch_invalid W chain addr hrpc haddr]
      exact ⟨fun h => absurd rfl h, fun _ => by simp⟩
    | true =>
      rw [scanBranch_valid W chain addr hrpc haddr]
      cases (isContract W (getRPC W.unicode W.getenv chain) addr).err with
      | none => exact ⟨fun h => absurd rfl h, fun _ => by simp⟩
      | some e => exact ⟨fun _ => rfl, fun h => by simp at h⟩

theorem chainAndAddr_eq_some (T : CaseTables) (args : List Str) (chain addr : Str) :
    chainAndAddr T args = some (chain, addr) ↔
      ((args = [addr] ∧ chain = "eth".data)
        ∨ ∃ (a0 : Str) (rest : List Str), args = a0 :: addr :: rest ∧ chain = ToLower T a0) := by
  constructor
  · intro h
    match args, h with
    | [a0], h =>
      simp only [chainAndAddr, Option.some.injEq, Prod.mk.injEq] at h
      exact Or.inl ⟨by rw [h.2], h.1.symm⟩
    | a0 :: a1 :: rest, h =>
      simp only [chainAndAddr, Option.some.injEq, Prod.mk.injEq] at h
      exact Or.inr ⟨a0, rest, by rw [h.2], h.1.symm⟩
  · rintro (⟨rfl, rfl⟩ | ⟨a0, rest, rfl, rfl⟩) <;> rfl

/-- The error of a run, read off the task: the error of the helper the task is
delegated to, and nil when the task is delegated to none. -/
theorem ProcessTask_err (W : World) (task : Str) :
    (ProcessTask W task).err =
      match taskParts task with
      | [] => none
      | part0 :: args =>
        if ToLower W.unicode part0 = "price".data then
          if args = [] then none else (coingeckoPrice W (Join args "-".data)).err
        else if ToLower W.unicode part0 = "wallet".data then
          match chainAndAddr W.unicode args with
          | none => none
          | some (chain, addr) =>
            if getRPC W.unicode W.getenv chain ≠ [] ∧ IsHexAddress addr = true then
              (ethBalance W (getRPC W.unicode W.getenv chain) addr).err
            else none
        else if ToLower W.unicode part0 = "scan_contract".data then
          match chainAndAddr W.unicode args with
          | none => none
          | some (chain, addr) =>
            if getRPC W.unicode W.getenv chain ≠ [] ∧ IsHexAddress addr = true then
              (isContract W (getRPC W.unicode W.getenv chain) addr).err
            else none
        else none := by
  cases hparts : taskParts task with
  | nil => rw [ProcessTask_nil W task hparts]
  | cons part0 args =>
    by_cases hprice : ToLower W.unicode part0 = "price".data
    · rw [ProcessTask_price W task part0 args hparts hprice]
      simp only [hprice, if_true]
      by_cases hargs : args = []
      · subst hargs; rfl
      · have hlen : ¬ args.length = 0 := fun h0 => hargs (List.length_eq_zero.mp h0)
        rw [if_neg hlen, if_neg hargs]
        cases (coingeckoPrice W (Join args "-".data)).err <;> rfl
    · by_cases hwallet : ToLower W.unicode part0 = "wallet".data
      · rw [ProcessTask_wallet W task part0 args hparts hwallet]
        simp only [hprice, hwallet, if_true, if_false]
        cases chainAndAddr W.unicode args with
        | none => rfl
        | some ca => exact walletBranch_err W ca.1 ca.2
      · by_cases hscan : ToLower W.unicode part0 = "scan_contract".data
        · rw [ProcessTask_scan W task part0 args hparts hscan]
          simp only [hprice, hwallet, hscan, if_true, if_false]
          cases chainAndAddr W.unicode args with
          | none => rfl
          | some ca => exact scanBranch_err W ca.1 ca.2
        · have hname : ToLower W.unicode part0 ∉ commandNames := by
            simp only [commandNames, List.mem_cons, List.mem_singleton, List.not_mem_nil,
              or_false, not_or]
            exact ⟨hprice, hwallet, hscan⟩
          rw [ProcessTask_unknown W task part0 args hparts hname]
          simp only [hprice, hwallet, hscan, if_false]

/-- An error comes with the empty response, a nil error with a response. -/
theorem ProcessTask_response (W : World) (task : Str) :
    ((ProcessTask W task).err ≠ none → (ProcessTask W task).response = [])
      ∧ ((ProcessTask W task).err = none → (ProcessTask W task).response ≠ []) := by
  cases hparts : taskParts task with
  | nil =>
    rw [ProcessTask_nil W task hparts]
    exact ⟨fun h => absurd rfl h, fun _ => by simp⟩
  | cons part0 args =>
    by_cases hprice : ToLower W.unicode part0 = "price".data
    · rw [ProcessTask_price W task part0 args hparts hprice]
      by_cases hlen : args.length = 0
      · rw [if_pos hlen]
        exact ⟨fun h => absurd rfl h, fun _ => by simp⟩
      · rw [if_neg hlen]
        cases (coingeckoPrice W (Join args "-".data)).err with
        | none => exact ⟨fun h => absurd rfl h, fun _ => by simp⟩
        | some e => exact ⟨fun _ => rfl, fun h => by simp at h⟩
    · by_cases hwallet : ToLower W.unicode part0 = "wallet".data
      · rw [ProcessTask_wallet W task part0 args hparts hwallet]
        cases chainAndAddr W.unicode args with
        | none => exact ⟨fun h => absurd rfl h, fun _ => by simp⟩
        | some ca => exact walletBranch_response W ca.1 ca.2
      · by_cases hscan : ToLower W.unicode part0 = "scan_contract".data
        · rw [ProcessTask_scan W task part0 args hparts hscan]
          cases chainAndAddr W.unicode args with
          | none => exact ⟨fun h => absurd rfl h, fun _ => by simp⟩
          | some ca => exact scanBranch_response W ca.1 ca.2
        · have hname : ToLower W.unicode part0 ∉ commandNames := by
            simp only [commandNames, List.mem_cons, List.mem_singleton, List.not_mem_nil,
              or_false, not_or]
            exact ⟨hprice, hwallet, hscan⟩
          rw [ProcessTask_unknown W task part0 args hparts hname]
          exact ⟨fun h => absurd rfl h, fun _ => by simp⟩

/-- C2. `ProcessTask` returns the error `e` if and only if the task is one that
is delegated to a helper and that call returned `e`: a `price` command with an
argument and `coingeckoPrice` of the joined arguments, or a `wallet`
(`scan_contract`) command with a configured chain and an accepted address and
`ethBalance` (`isContract`) of the endpoint and the address. An error comes
with the empty response and a nil error with a non-empty one. For every other
input the error is nil and the response is the diagnostic: the empty task, an
unknown command, missing arguments, an unconfigured chain, a malformed
address. -/
theorem c2_error_iff_helper_error (W : World) (task : Str) :
    (∀ e : Error, (ProcessTask W task).err = some e ↔
        (∃ (part0 : Str) (args : List Str), taskParts task = part0 :: args
            ∧ ToLower W.unicode part0 = "price".data ∧ args ≠ []
            ∧ (coingeckoPrice W (Join args "-".data)).err = some e)
        ∨ (∃ (part0 : Str) (args : List Str) (chain addr : Str),
            taskParts task = part0 :: args ∧ ToLower W.unicode part0 = "wallet".data
            ∧ ((args = [addr] ∧ chain = "eth".data)
              ∨ ∃ (a0 : Str) (rest : List Str), args = a0 :: addr :: rest
                  ∧ chain = ToLower W.unicode a0)
            ∧ getRPC W.unicode W.getenv chain ≠ [] ∧ IsHexAddress addr = true
            ∧ (ethBalance W (getRPC W.unicode W.getenv chain) addr).err = some e)
        ∨ (∃ (part0 : Str) (args : List Str) (chain addr : Str),
            taskParts task = part0 :: args ∧ ToLower W.unicode part0 = "scan_contract".data
            ∧ ((args = [addr] ∧ chain = "eth".data)
              ∨ ∃ (a0 : Str) (rest : List Str), args = a0 :: addr :: rest
                  ∧ chain = ToLower W.unicode a0)
            ∧ getRPC W.unicode W.getenv chain ≠ [] ∧ IsHexAddress addr = true
            ∧ (isContract W (getRPC W.unicode W.getenv chain) addr).err = some e))
      ∧ ((ProcessTask W task).err ≠ none → (ProcessTask W task).response = [])
      ∧ ((ProcessTask W task).err = none → (ProcessTask W task).response ≠ [])
      ∧ (taskParts task = [] →
          (ProcessTask W task).err = none
            ∧ (ProcessTask W task).response =
              "No command provided. Available commands: price, wallet, scan_contract".data)
      ∧ (∀ (part0 : Str) (args : List Str), taskParts task = part0 :: args →
          (ToLower W.unicode part0 ∉ commandNames →
              (ProcessTask W task).err = none
                ∧ (ProcessTask W task).response =
                  "Unknown command '".data ++ ToLower W.unicode part0
                    ++ "'. Available commands: price, wallet, scan_contract".data)
            ∧ (ToLower W.unicode part0 = "price".data → args = [] →
              (ProcessTask W task).err = none
                ∧ (ProcessTask W task).response =
                  "Usage: price <coin_id_or_symbol>. Example: price ethereum".data)
            ∧ (ToLower W.unicode part0 = "wallet".data → args = [] →
              (ProcessTask W task).err = none
                ∧ (ProcessTask W task).response =
                  "Usage: wallet <chain> <0xaddress>. Example: wallet eth 0x123...".data)
            ∧ (ToLower W.unicode part0 = "scan_contract".data → args = [] →
              (ProcessTask W task).err = none
                ∧ (ProcessTask W task).response =
                  "Usage: scan_contract <chain> <0xaddress>".data)
            ∧ (∀ chain addr : Str,
                ToLower W.unicode part0 = "wallet".data
                  ∨ ToLower W.unicode part0 = "scan_contract".data →
                ((args = [addr] ∧ chain = "eth".data)
                  ∨ ∃ (a0 : Str) (rest : List Str), args = a0 :: addr :: rest
                      ∧ chain = ToLower W.unicode a0) →
                (getRPC W.unicode W.getenv chain = [] →
                  (ProcessTask W task).err = none
                    ∧ (ProcessTask W task).response =
                      "RPC URL for chain '".data ++ chain
                        ++ "' not configured in .env".data)
                ∧ (getRPC W.unicode W.getenv chain ≠ [] → IsHexAddress addr = false →
                  (ProcessTask W task).err = none
                    ∧ (ProcessTask W task).response =
                      "Invalid address format. Expected 0x...".data))) := by
  refine ⟨fun e => ?_, (ProcessTask_response W task).1, (ProcessTask_response W task).2,
    fun h => ?_, fun part0 args hparts => ⟨fun h => ?_, fun h ha => ?_, fun h ha => ?_,
      fun h ha => ?_, fun chain addr hcmd hargs => ⟨fun hrpc => ?_, fun hrpc haddr => ?_⟩⟩⟩
  · rw [ProcessTask_err W task]
    constructor
    · intro herr
      cases hparts : taskParts task with
      | nil => simp [hparts] at herr
      | cons part0 args =>
        simp only [hparts] at herr
        by_cases hprice : ToLower W.unicode part0 = "price".data
        · rw [if_pos hprice] at herr
          by_cases hargs : args = []
          · simp [hargs] at herr
          · rw [if_neg hargs] at herr
            exact Or.inl ⟨part0, args, rfl, hprice, hargs, herr⟩
        · by_cases hwallet : ToLower W.unicode part0 = "wallet".data
          · rw [if_neg hprice, if_pos hwallet] at herr
            cases hsel : chainAndAddr W.unicode args with
            | none => simp [hsel] at herr
            | some ca =>
              obtain ⟨chain, addr⟩ := ca
              simp only [hsel] at herr
              by_cases hok : getRPC W.unicode W.getenv chain ≠ [] ∧ IsHexAddress addr = true
              · rw [if_pos hok] at herr
                exact Or.inr (Or.inl ⟨part0, args, chain, addr, rfl, hwallet,
                  (chainAndAddr_eq_some _ _ _ _).mp hsel, hok.1, hok.2, herr⟩)
              · rw [if_neg hok] at herr
                exact absurd herr (by simp)
          · by_cases hscan : ToLower W.unicode part0 = "scan_contract".data
            · rw [if_neg hprice, if_neg hwallet, if_pos hscan] at herr
              cases hsel : chainAndAddr W.unicode args with
              | none => simp [hsel] at herr
              | some ca =>
                obtain ⟨chain, addr⟩ := ca
                simp only [hsel] at herr
                by_cases hok : getRPC W.unicode W.getenv chain ≠ [] ∧ IsHexAddress addr = true
                · rw [if_pos hok] at herr
                  exact Or.inr (Or.inr ⟨part0, args, chain, addr, rfl, hscan,
                    (chainAndAddr_eq_some _ _ _ _).mp hsel, hok.1, hok.2, herr⟩)
                · rw [if_neg hok] at herr
                  exact absurd herr (by simp)
            · rw [if_neg hprice, if_neg hwallet, if_neg hscan] at herr
              exact absurd herr (by simp)
    · rintro (⟨part0, args, hparts, hcmd, hargs, herr⟩
        | ⟨part0, args, chain, addr, hparts, hcmd, hargs, hrpc, haddr, herr⟩
        | ⟨part0, args, chain, addr, hparts, hcmd, hargs, hrpc, haddr, herr⟩)
      · simp only [hparts]
        rw [if_pos hcmd, if_neg hargs, herr]
      · have hsel := (chainAndAddr_eq_some W.unicode args chain addr).mpr hargs
        have h1 : ¬ ToLower W.unicode part0 = "price".data := by rw [hcmd]; decide
        simp only [hparts]
        rw [if_neg h1, if_pos hcmd]
        simp only [hsel]
        rw [if_pos (And.intro hrpc haddr), herr]
      · have hsel := (chainAndAddr_eq_some W.unicode args chain addr).mpr hargs
        have h1 : ¬ ToLower W.unicode part0 = "price".data := by rw [hcmd]; decide
        have h2 : ¬ ToLower W.unicode part0 = "wallet".data := by rw [hcmd]; decide
        simp only [hparts]
        rw [if_neg h1, if_neg h2, if_pos hcmd]
        simp only [hsel]
        rw [if_pos (And.intro hrpc haddr), herr]
  · rw [ProcessTask_nil W task h]
    exact ⟨rfl, rfl⟩
  · rw [ProcessTask_unknown W task part0 args hparts h]
    exact ⟨rfl, rfl⟩
  · subst ha
    rw [ProcessTask_price W task part0 [] hparts h]
    exact ⟨rfl, rfl⟩
  · subst ha
    rw [ProcessTask_wallet W task part0 [] hparts h]
    exact ⟨rfl, rfl⟩
  · subst ha
    rw [ProcessTask_scan W task part0 [] hparts h]
    exact ⟨rfl, rfl⟩
  · rcases ProcessTask_chain_command W task part0 args chain addr hparts hcmd hargs with
      ⟨_, h⟩ | ⟨_, h⟩
    · rw [h, walletBranch_unconfigured W chain addr hrpc]
      exact ⟨rfl, rfl⟩
    · rw [h, scanBranch_unconfigured W chain addr hrpc]
      exact ⟨rfl, rfl⟩
  · rcases ProcessTask_chain_command W task part0 args chain addr hparts hcmd hargs with
      ⟨_, h⟩ | ⟨_, h⟩
    · rw [h, walletBranch_invalid W chain addr hrpc haddr]
      exact ⟨rfl, rfl⟩
    · rw [h, scanBranch_invalid W chain addr hrpc haddr]
      exact ⟨rfl, rfl⟩

/-- Witness of C2: five tasks that are delegated to no helper, and one whose
helper fails, in a world with no endpoint configured and no network. -/
theorem c2_error_iff_helper_error_witness :
    ((ProcessTask worldUnconfigured "  ".data).err = none
        ∧ (ProcessTask worldUnconfigured "  ".data).response =
          "No command provided. Available commands: price, wallet, scan_contract".data)
      ∧ ((ProcessTask worldUnconfigured "/wallet".data).err = none
        ∧ (ProcessTask worldUnconfigured "/wallet".data).response =
          "Usage: wallet <chain> <0xaddress>. Example: wallet eth 0x123...".data)
      ∧ ((ProcessTask worldUnconfigured "price btc".data).err =
          some (Error.fetchPrice "no network".data)
        ∧ (ProcessTask worldUnconfigured "price btc".data).response = []) := by
  have h1 := c2_error_iff_helper_error worldUnconfigured "  ".data
  have h2 := c2_error_iff_helper_error worldUnconfigured "/wallet".data
  have h3 := c2_error_iff_helper_error worldUnconfigured "price btc".data
  refine ⟨h1.2.2.2.1 (by decide),
    (h2.2.2.2.2 "wallet".data [] (by decide)).2.2.1 (by decide) rfl, ?_, ?_⟩
  · exact (h3.1 _).mpr (Or.inl ⟨"price".data, ["btc".data], by decide, by decide, by decide,
      by decide⟩)
  · exact h3.2.1 (by decide)

/-! ## C6: symbol resolution -/

theorem resolveID_value (T : CaseTables) (kv : Str × Str) (h : kv ∈ symbolToID) :
    resolveID T kv.2 = kv.2 := by
  simp only [symbolToID, List.mem_cons, List.mem_singleton, List.not_mem_nil, or_false] at h
  rcases h with rfl | rfl | rfl | rfl | rfl | rfl <;> rfl

theorem mem_TrimSpace (s : Str) (c : Char) (h : c ∈ TrimSpace s) : c ∈ s :=
  (List.dropWhile_suffix unicodeIsSpace).subset ((List.rdropWhile_prefix unicodeIsSpace _).subset h)

theorem ToLower_ascii (T T' : CaseTables) (s : Str) (hs : ∀ c ∈ s, c.toNat ≤ 0x7F) :
    ToLower T s = ToLower T' s := by
  apply List.map_congr_left
  intro c hc
  simp only [unicodeToLower, if_pos (hs c hc)]

theorem resolveID_ascii (T T' : CaseTables) (s : Str) (hs : ∀ c ∈ s, c.toNat ≤ 0x7F) :
    resolveID T s = resolveID T' s := by
  have h := ToLower_ascii T T' (TrimSpace s) (fun c hc => hs c (mem_TrimSpace s c hc))
  simp only [resolveID, h]

theorem resolveID_ascii_range (T : CaseTables) (s : Str) (hs : ∀ c ∈ s, c.toNat ≤ 0x7F) :
    ∀ c ∈ resolveID T s, c.toNat ≤ 0x7F := by
  cases hl : symbolToID.lookup (ToLower T (TrimSpace s)) with
  | some v =>
    have hv : resolveID T s = v := by simp only [resolveID, hl]
    have hmem := lookup_mem _ _ _ hl
    rw [hv]
    simp only [symbolToID, List.mem_cons, List.mem_singleton, List.not_mem_nil, or_false,
      Prod.mk.injEq] at hmem
    rcases hmem with ⟨_, rfl⟩ | ⟨_, rfl⟩ | ⟨_, rfl⟩ | ⟨_, rfl⟩ | ⟨_, rfl⟩ | ⟨_, rfl⟩ <;> decide
  | none =>
    have hn : resolveID T s = ToLower T (TrimSpace s) := by simp only [resolveID, hl]
    rw [hn]
    intro c hc
    simp only [ToLower, List.mem_map] at hc
    obtain ⟨a, ha, rfl⟩ := hc
    have ha' := hs a (mem_TrimSpace s a ha)
    simp only [unicodeToLower, if_pos ha']
    exact (ascii_toLower a ha').1

theorem asciiOnly_regular : CaseTables.asciiOnly.Regular where
  lower_lower := fun c hc => by
    have : ¬ c.toNat ≤ 0x7F := by omega
    simp only [CaseTables.asciiOnly, id, unicodeToLower, if_neg this]
  lower_space := fun c _ => rfl

theorem resolveID_idem (T : CaseTables) (hT : T.Regular) (s : Str) :
    resolveID T (resolveID T s) = resolveID T s := by
  cases hl : symbolToID.lookup (ToLower T (TrimSpace s)) with
  | some v =>
    have hs : resolveID T s = v := by simp only [resolveID, hl]
    rw [hs]
    exact resolveID_value T (ToLower T (TrimSpace s), v) (lookup_mem _ _ _ hl)
  | none =>
    have hs : resolveID T s = ToLower T (TrimSpace s) := by simp only [resolveID, hl]
    have hn : ToLower T (TrimSpace (ToLower T (TrimSpace s))) = ToLower T (TrimSpace s) := by
      rw [← TrimSpace_ToLower T hT, ToLower_idem T hT, TrimSpace_ToLower T hT, TrimSpace_idem]
    rw [hs]
    simp only [resolveID, hn, hl]

/-- C6. Symbol resolution is idempotent, `resolveID (resolveID s) = resolveID s`:
for every string `s` when the case tables of the runtime are regular
(`CaseTables.Regular`), and for every ASCII string `s` whatever the tables.
For regular tables, trimming then lower-casing (the code's order) equals
lower-casing then trimming. Every value of the table `symbolToID` resolves to
itself, and `btc` resolves to `bitcoin`. -/
theorem c6_resolve_idempotent (T : CaseTables) :
    (T.Regular → ∀ s : Str, resolveID T (resolveID T s) = resolveID T s)
      ∧ (∀ s : Str, (∀ c ∈ s, c.toNat ≤ 0x7F) →
          resolveID T (resolveID T s) = resolveID T s)
      ∧ (T.Regular → ∀ s : Str, ToLower T (TrimSpace s) = TrimSpace (ToLower T s))
      ∧ (∀ kv ∈ symbolToID, resolveID T kv.2 = kv.2)
      ∧ resolveID T "btc".data = "bitcoin".data := by
  refine ⟨fun hT s => resolveID_idem T hT s, fun s hs => ?_,
    fun hT s => (TrimSpace_ToLower T hT s).symm, fun kv h => resolveID_value T kv h, rfl⟩
  have h1 := resolveID_ascii T CaseTables.asciiOnly s hs
  have h2 := resolveID_ascii T CaseTables.asciiOnly (resolveID CaseTables.asciiOnly s)
    (resolveID_ascii_range CaseTables.asciiOnly s hs)
  rw [h1, h2]
  exact resolveID_idem CaseTables.asciiOnly asciiOnly_regular _

/-- Witness of C6, for the tables that leave every rune above ASCII unchanged. -/
theorem c6_resolve_idempotent_witness :
    resolveID CaseTables.asciiOnly (resolveID CaseTables.asciiOnly "  Matic\t".data) =
        "matic-network".data
      ∧ resolveID CaseTables.asciiOnly (resolveID CaseTables.asciiOnly " DogeCoin ".data) =
        "dogecoin".data
      ∧ resolveID CaseTables.asciiOnly "btc".data = "bitcoin".data := by
  have h := c6_resolve_idempotent CaseTables.asciiOnly
  refine ⟨?_, ?_, h.2.2.2.2⟩
  · rw [h.1 asciiOnly_regular]; decide
  · rw [h.2.1 _ (by decide)]; decide

/-! ## C7: the chain registry -/

/-- C7, as amended. For every configuration `getenv` and every chain string `c`:
`getRPC` gives the same endpoint for `c` and for any string `c'` that differs from
`c` in the case of ASCII letters only (their ASCII lower-casings agree), surrounded
by any white space; for regular case tables the same holds for any `c'` that Go's
`strings.ToLower` identifies with `c`; the aliases `eth` and `ethereum`, `bsc` and `binance`, `polygon`
and `matic` resolve to the same endpoint; and a name that, trimmed and
lower-cased, is outside the fixed alias set yields the empty string. -/
theorem c7_getRPC_insensitive (T : CaseTables) (getenv : Str → Str) :
    (∀ c c' l r : Str, c'.map Char.toLower = c.map Char.toLower →
        (∀ x ∈ l, unicodeIsSpace x = true) → (∀ x ∈ r, unicodeIsSpace x = true) →
        getRPC T getenv (l ++ c' ++ r) = getRPC T getenv c)
      ∧ (T.Regular → ∀ c c' l r : Str, ToLower T c' = ToLower T c →
        (∀ x ∈ l, unicodeIsSpace x = true) → (∀ x ∈ r, unicodeIsSpace x = true) →
        getRPC T getenv (l ++ c' ++ r) = getRPC T getenv c)
      ∧ getRPC T getenv "eth".data = getRPC T getenv "ethereum".data
      ∧ getRPC T getenv "bsc".data = getRPC T getenv "binance".data
      ∧ getRPC T getenv "polygon".data = getRPC T getenv "matic".data
      ∧ (∀ c : Str, ToLower T (TrimSpace c) ∉ chainNames → getRPC T getenv c = []) := by
  refine ⟨fun c c' l r hfold hl hr => ?_, fun hT c c' l r hlow hl hr => ?_, rfl, rfl, rfl,
    fun c hc => ?_⟩
  · apply getRPC_congr
    rw [TrimSpace_surround l c' r hl hr, ← ToLower_TrimSpace_fold T c', hfold,
      ToLower_TrimSpace_fold T c]
  · apply getRPC_congr
    rw [TrimSpace_surround l c' r hl hr, ← TrimSpace_ToLower T hT, hlow,
      TrimSpace_ToLower T hT]
  · simp only [chainNames, List.mem_cons, List.mem_singleton, List.not_mem_nil, or_false,
      not_or] at hc
    obtain ⟨h1, h2, h3, h4, h5, h6, h7, h8⟩ := hc
    simp only [getRPC, h1, h2, h3, h4, h5, h6, h7, h8, or_self, if_false]

/-- Witness of C7: `"\t MATIC \n"` and `"polygon"` resolve to the endpoint of
`POLYGON_RPC_URL`, and `solana` to the empty string. -/
theorem c7_getRPC_insensitive_witness :
    getRPC CaseTables.asciiOnly (fun name => name) ("\t ".data ++ "MATIC".data ++ " \n".data) =
        "POLYGON_RPC_URL".data
      ∧ getRPC CaseTables.asciiOnly (fun name => name) "polygon".data = "POLYGON_RPC_URL".data
      ∧ getRPC CaseTables.asciiOnly (fun name => name) "solana".data = [] := by
  have h := c7_getRPC_insensitive CaseTables.asciiOnly (fun name => name)
  refine ⟨?_, ?_, h.2.2.2.2.2 "solana".data (by decide)⟩
  · rw [h.1 "matic".data "MATIC".data "\t ".data " \n".data (by decide) (by decide) (by decide),
      ← h.2.2.2.2.1]
    decide
  · decide

theorem longS_regular : CaseTables.longS.Regular where
  lower_lower := fun c hc => by
    have : ¬ c.toNat ≤ 0x7F := by omega
    simp only [CaseTables.longS, id, unicodeToLower, if_neg this]
  lower_space := fun c _ => rfl

/-- Counterexample to C7 as stated: upper-casing is a change of letter case, and
Go upper-cases the long s of `baſe` to `S`. On every runtime whose tables do so
(and leave the long s unchanged by lower-casing, as Go's do), `getRPC` of `baſe`
is the empty string while `getRPC` of its upper-casing `BASE` is the endpoint of
`BASE_RPC_URL`; so with that variable set the two differ, and this for regular
tables. -/
theorem c7_counterexample :
    (∀ (T : CaseTables) (getenv : Str → Str), T.upper '\u017f' = 'S' → T.lower '\u017f' = '\u017f' →
        ToUpper T "ba\u017fe".data = "BASE".data
          ∧ getRPC T getenv "ba\u017fe".data = []
          ∧ getRPC T getenv (ToUpper T "ba\u017fe".data) = getenv "BASE_RPC_URL".data)
      ∧ CaseTables.longS.Regular
      ∧ getRPC CaseTables.longS sampleEnv "ba\u017fe".data = []
      ∧ getRPC CaseTables.longS sampleEnv (ToUpper CaseTables.longS "ba\u017fe".data) =
          "http://base.node".data
      ∧ getRPC CaseTables.longS sampleEnv (ToUpper CaseTables.longS "ba\u017fe".data) ≠
          getRPC CaseTables.longS sampleEnv "ba\u017fe".data := by
  refine ⟨fun T getenv hup hlow => ?_, longS_regular, by decide, by decide, by decide⟩
  have h1 : ToUpper T "ba\u017fe".data = "BASE".data := by
    show ['B', 'A', T.upper '\u017f', 'E'] = _
    rw [hup]
  have h2 : ToLower T (TrimSpace "ba\u017fe".data) = "ba\u017fe".data := by
    show ['b', 'a', T.lower '\u017f', 'e'] = _
    rw [hlow]
  refine ⟨h1, ?_, ?_⟩
  · simp only [getRPC, h2]
    rw [if_neg (by decide), if_neg (by decide), if_neg (by decide), if_neg (by decide),
      if_neg (by decide)]
  · rw [h1]
    rfl

/-! ## C8: the `wallet` response -/

/-- C8. For every `wallet` command whose chain resolves to a configured
endpoint, whose address `common.IsHexAddress` accepts and whose call of
`ethBalance` succeeds with the display string `b`: with exactly one argument
the chain is `eth` and the argument is the address; with two or more the chain
is the first argument (lower-cased) and the address the second; the response is
`[<CHAIN>] Balance <addr>: <b>` with a nil error, where `<CHAIN>` is the chain
upper-cased and `<addr>` the address token as typed. Arguments after the second
do not change the result, and for an ASCII chain name `<CHAIN>` is the first
argument upper-cased. -/
theorem c8_wallet_response (W : World) (task part0 : Str) (args : List Str)
    (chain addr b : Str)
    (hparts : taskParts task = part0 :: args)
    (hcmd : ToLower W.unicode part0 = "wallet".data)
    (hargs : (args = [addr] ∧ chain = "eth".data)
      ∨ ∃ (a0 : Str) (rest : List Str), args = a0 :: addr :: rest
          ∧ chain = ToLower W.unicode a0)
    (hrpc : getRPC W.unicode W.getenv chain ≠ [])
    (haddr : IsHexAddress addr = true)
    (herr : (ethBalance W (getRPC W.unicode W.getenv chain) addr).err = none)
    (hb : (ethBalance W (getRPC W.unicode W.getenv chain) addr).display = b) :
    (ProcessTask W task).response =
        "[".data ++ ToUpper W.unicode chain ++ "] Balance ".data ++ addr ++ ": ".data ++ b
      ∧ (ProcessTask W task).err = none
      ∧ (∀ (task' a0 a1 : Str) (rest rest' : List Str), args = a0 :: a1 :: rest →
          taskParts task' = part0 :: a0 :: a1 :: rest' →
          ProcessTask W task' = ProcessTask W task)
      ∧ (∀ a0 : Str, (∀ c ∈ a0, c.toNat ≤ 0x7F) →
          ToUpper W.unicode (ToLower W.unicode a0) = ToUpper W.unicode a0) := by
  have hrun : ProcessTask W task = walletBranch W chain addr := by
    rcases ProcessTask_chain_command W task part0 args chain addr hparts (Or.inl hcmd) hargs
      with ⟨_, h⟩ | ⟨h', _⟩
    · exact h
    · rw [hcmd] at h'; exact absurd h' (by decide)
  refine ⟨?_, ?_, ?_, fun a0 h0 => ToUpper_ToLower_ascii W.unicode a0 h0⟩
  · rw [hrun, walletBranch_valid W chain addr hrpc haddr, herr, hb]
  · rw [hrun, walletBranch_valid W chain addr hrpc haddr, herr]
  · intro task' a0 a1 rest rest' hargs' hparts'
    subst hargs'
    rw [ProcessTask_wallet W task part0 _ hparts hcmd,
      ProcessTask_wallet W task' part0 _ hparts' hcmd]
    rfl

set_option maxRecDepth 100000 in
/-- Witness of C8: `wallet Base <address> extra` against a node that reports
`1500000000000000000` wei. -/
theorem c8_wallet_response_witness :
    (ProcessTask (worldWith 1500000000000000000 [] (.error []))
        "wallet Base 0xABCDEF0000000000000000000000000000000001 extra".data).response =
      "[BASE] Balance 0xABCDEF0000000000000000000000000000000001: 1.500000000000000000 ETH".data
    ∧ (ProcessTask (worldWith 1500000000000000000 [] (.error []))
        "wallet 0xABCDEF0000000000000000000000000000000001".data).response =
      "[ETH] Balance 0xABCDEF0000000000000000000000000000000001: 1.500000000000000000 ETH".data :=
  ⟨(c8_wallet_response (worldWith 1500000000000000000 [] (.error []))
      "wallet Base 0xABCDEF0000000000000000000000000000000001 extra".data "wallet".data
      ["Base".data, "0xABCDEF0000000000000000000000000000000001".data, "extra".data]
      "base".data "0xABCDEF0000000000000000000000000000000001".data
      "1.500000000000000000 ETH".data (by decide) (by decide)
      (Or.inr ⟨"Base".data, ["extra".data], rfl, by decide⟩) (by decide) (by decide)
      (by decide) (by decide)).1,
   (c8_wallet_response (worldWith 1500000000000000000 [] (.error []))
      "wallet 0xABCDEF0000000000000000000000000000000001".data "wallet".data
      ["0xABCDEF0000000000000000000000000000000001".data]
      "eth".data "0xABCDEF0000000000000000000000000000000001".data
      "1.500000000000000000 ETH".data (by decide) (by decide)
      (Or.inl ⟨rfl, rfl⟩) (by decide) (by decide)
      (by decide) (by decide)).1⟩

/-! ## C9: the `scan_contract` response -/

theorem status_ne (pre : Str) (n : Nat) :
    pre ++ "is a contract".data ++ " (code size = ".data ++ Nat.toDigits 10 n
        ++ " bytes)".data ≠
      pre ++ "is NOT a contract".data ++ " (code size = ".data ++ Nat.toDigits 10 0
        ++ " bytes)".data := by
  intro h
  simp only [List.append_assoc, List.append_cancel_left_eq] at h
  exact absurd h (by simp)

/-- C9. For every `scan_contract` command whose chain resolves to a configured
endpoint, whose address `common.IsHexAddress` accepts and whose code query
succeeds with `n` bytes of code: the run has a nil error; the response is
`[<CHAIN>] <addr> is a contract (code size = <n> bytes)` if and only if `n > 0`,
and `[<CHAIN>] <addr> is NOT a contract (code size = 0 bytes)` if and only if
`n = 0`; and the flag that `isContract` reports is true exactly when the size it
reports is positive. -/
theorem c9_scan_response (W : World) (task part0 : Str) (args : List Str)
    (chain addr : Str) (code : List UInt8)
    (hparts : taskParts task = part0 :: args)
    (hcmd : ToLower W.unicode part0 = "scan_contract".data)
    (hargs : (args = [addr] ∧ chain = "eth".data)
      ∨ ∃ (a0 : Str) (rest : List Str), args = a0 :: addr :: rest
          ∧ chain = ToLower W.unicode a0)
    (hrpc : getRPC W.unicode W.getenv chain ≠ [])
    (haddr : IsHexAddress addr = true)
    (hdial : W.dialContext (getRPC W.unicode W.getenv chain) = none)
    (hcode : W.codeAt (getRPC W.unicode W.getenv chain) addr = .ok code) :
    (ProcessTask W task).err = none
      ∧ ((ProcessTask W task).response =
            "[".data ++ ToUpper W.unicode chain ++ "] ".data ++ addr ++ " ".data
              ++ "is a contract".data ++ " (code size = ".data
              ++ Nat.toDigits 10 code.length ++ " bytes)".data
          ↔ 0 < code.length)
      ∧ ((ProcessTask W task).response =
            "[".data ++ ToUpper W.unicode chain ++ "] ".data ++ addr ++ " ".data
              ++ "is NOT a contract".data ++ " (code size = ".data
              ++ Nat.toDigits 10 0 ++ " bytes)".data
          ↔ code.length = 0)
      ∧ (∀ rpc address : Str,
          (isContract W rpc address).contract = true ↔ 0 < (isContract W rpc address).size) := by
  have hrun : ProcessTask W task = scanBranch W chain addr := by
    rcases ProcessTask_chain_command W task part0 args chain addr hparts (Or.inr hcmd) hargs
      with ⟨h', _⟩ | ⟨_, h⟩
    · rw [hcmd] at h'; exact absurd h' (by decide)
    · exact h
  have hres := isContract_ok W (getRPC W.unicode W.getenv chain) addr code hrpc hdial hcode
  rw [hrun, scanBranch_valid W chain addr hrpc haddr, hres]
  refine ⟨rfl, ?_, ?_, fun rpc address => isContract_flag W rpc address⟩
  · by_cases hn : 0 < code.length
    · simp only [hn, decide_True, Bool.not_true, Bool.false_eq_true, if_false, iff_true]
    · have h0 : code.length = 0 := by omega
      simp only [h0, lt_self_iff_false, decide_False, Bool.not_false, if_true, iff_false]
      exact (status_ne _ 0).symm
  · by_cases hn : 0 < code.length
    · have h0 : ¬ code.length = 0 := by omega
      simp only [hn, decide_True, Bool.not_true, Bool.false_eq_true, if_false, h0, iff_false]
      exact status_ne _ code.length
    · have h0 : code.length = 0 := by omega
      simp only [h0, lt_self_iff_false, decide_False, Bool.not_false, if_true]

/-- Witness of C9: `scan_contract base <address>` for an address without code
and for an address with three bytes of code. -/
theorem c9_scan_response_witness :
    (ProcessTask (worldWith 0 [] (.error []))
        "scan_contract base 0xABCDEF0000000000000000000000000000000001".data).response =
      "[BASE] 0xABCDEF0000000000000000000000000000000001 is NOT a contract (code size = 0 bytes)".data
    ∧ (ProcessTask (worldWith 0 [0x60, 0x80, 0x60] (.error []))
        "scan_contract base 0xABCDEF0000000000000000000000000000000001".data).response =
      "[BASE] 0xABCDEF0000000000000000000000000000000001 is a contract (code size = 3 bytes)".data :=
  ⟨(c9_scan_response (worldWith 0 [] (.error []))
      "scan_contract base 0xABCDEF0000000000000000000000000000000001".data
      "scan_contract".data ["base".data, "0xABCDEF0000000000000000000000000000000001".data]
      "base".data "0xABCDEF0000000000000000000000000000000001".data []
      (by decide) (by decide) (Or.inr ⟨"base".data, [], rfl, by decide⟩) (by decide)
      (by decide) rfl rfl).2.2.1.mpr rfl,
   (c9_scan_response (worldWith 0 [0x60, 0x80, 0x60] (.error []))
      "scan_contract base 0xABCDEF0000000000000000000000000000000001".data
      "scan_contract".data ["base".data, "0xABCDEF0000000000000000000000000000000001".data]
      "base".data "0xABCDEF0000000000000000000000000000000001".data [0x60, 0x80, 0x60]
      (by decide) (by decide) (Or.inr ⟨"base".data, [], rfl, by decide⟩) (by decide)
      (by decide) rfl rfl).2.1.mpr (by decide)⟩

/-! ## C10: the `price` response -/

theorem coingeckoPrice_display (W : World) (id : Str)
    (herr : (coingeckoPrice W id).err = none) :
    (coingeckoPrice W id).display = '$' :: formatFloatG (coingeckoPrice W id).price 6 := by
  revert herr
  simp only [coingeckoPrice]
  split
  · intro h; simp at h
  · split
    · intro h; simp at h
    · split
      · intro h; simp at h
      · split
        · intro h; simp at h
        · split
          · intro h; simp at h
          · split
            · intro h; simp at h
            · intro _; rfl

/-- The significand `4466774467823429 × 2^-36 = 8933548935646858 × 2^-37` has 53
bits and lies within half a unit in the last place (`2^-38`) of `65000.1234`. -/
theorem usd65000_1234_nearest :
    2 ^ 52 ≤ 2 * usd65000_1234.mant ∧ 2 * usd65000_1234.mant < 2 ^ 53
      ∧ 4 * (650001234 * 2 ^ 36 - usd65000_1234.mant * 10 ^ 4) ≤ 10 ^ 4
      ∧ usd65000_1234.mant * 10 ^ 4 ≤ 650001234 * 2 ^ 36 := by
  decide

set_option maxRecDepth 100000 in
/-- The two renderings on a few doubles, as Go prints them with `%.6f` and
`%.6g`: `1234567`, `0.5`, `2^-20`, `999999.5`, `100`, `-2^-13`, `2^-17`. -/
theorem rendering_examples :
    (formatFloatF ⟨false, 1234567, 0⟩ 6 = "1234567.000000".data
        ∧ formatFloatG ⟨false, 1234567, 0⟩ 6 = "1.23457e+06".data
        ∧ sixFractionDigits ⟨false, 1234567, 0⟩ = "1234567.000000".data
        ∧ compactSix ⟨false, 1234567, 0⟩ 6 = "1.23457e+06".data)
      ∧ (formatFloatF ⟨false, 1, -1⟩ 6 = "0.500000".data
        ∧ formatFloatG ⟨false, 1, -1⟩ 6 = "0.5".data
        ∧ sixFractionDigits ⟨false, 1, -1⟩ = "0.500000".data
        ∧ compactSix ⟨false, 1, -1⟩ (-1) = "0.5".data)
      ∧ (formatFloatF ⟨false, 1, -20⟩ 6 = "0.000001".data
        ∧ formatFloatG ⟨false, 1, -20⟩ 6 = "9.53674e-07".data
        ∧ sixFractionDigits ⟨false, 1, -20⟩ = "0.000001".data
        ∧ compactSix ⟨false, 1, -20⟩ (-7) = "9.53674e-07".data)
      ∧ (formatFloatF ⟨false, 1999999, -1⟩ 6 = "999999.500000".data
        ∧ formatFloatG ⟨false, 1999999, -1⟩ 6 = "1e+06".data
        ∧ sixFractionDigits ⟨false, 1999999, -1⟩ = "999999.500000".data
        ∧ compactSix ⟨false, 1999999, -1⟩ 5 = "1e+06".data)
      ∧ (formatFloatF ⟨false, 25, 2⟩ 6 = "100.000000".data
        ∧ formatFloatG ⟨false, 25, 2⟩ 6 = "100".data
        ∧ sixFractionDigits ⟨false, 25, 2⟩ = "100.000000".data
        ∧ compactSix ⟨false, 25, 2⟩ 2 = "100".data)
      ∧ (formatFloatF ⟨true, 1, -13⟩ 6 = "-0.000122".data
        ∧ formatFloatG ⟨true, 1, -13⟩ 6 = "-0.00012207".data
        ∧ sixFractionDigits ⟨true, 1, -13⟩ = "-0.000122".data
        ∧ compactSix ⟨true, 1, -13⟩ (-4) = "-0.00012207".data)
      ∧ (formatFloatF ⟨false, 1, -17⟩ 6 = "0.000008".data
        ∧ formatFloatG ⟨false, 1, -17⟩ 6 = "7.62939e-06".data
        ∧ sixFractionDigits ⟨false, 1, -17⟩ = "0.000008".data
        ∧ compactSix ⟨false, 1, -17⟩ (-6) = "7.62939e-06".data) := by
  decide

set_option maxRecDepth 100000 in
/-- C10. For every `price` command: with no argument the usage string is
returned with a nil error and an empty event log (no lookup); with at least one
argument the identifier passed to `coingeckoPrice` is the arguments joined with
`-`, as typed; when that lookup succeeds with the USD value `v` the error is nil
and the response is `Price for <id>: <a> USD ($<b>)` for the same identifier,
where `<a>` is `v` with six fractional digits (the sign, then `|v| × 10^6`
rounded to the nearest integer, a half to even, with the point six places from
the right) and `<b>` is `v` in compact six-significant-digit form (for `v ≠ 0`
of decimal exponent `X`, which exists: the sign, then `|v| / 10^(X-5)` rounded
likewise, without trailing zeros, positional for `-4 ≤ X < 6` and scientific
otherwise; `0` after the sign for a zero); so `price btc`, when the API answers
`65000.1234` for `bitcoin`, yields `Price for btc: 65000.123400 USD ($65000.1)`. -/
theorem c10_price_response (W : World) (task part0 : Str) (args : List Str)
    (hparts : taskParts task = part0 :: args)
    (hcmd : ToLower W.unicode part0 = "price".data) :
    (args = [] →
        (ProcessTask W task).response =
            "Usage: price <coin_id_or_symbol>. Example: price ethereum".data
          ∧ (ProcessTask W task).err = none ∧ (ProcessTask W task).log = [])
      ∧ (args ≠ [] →
          (ProcessTask W task).log.head? = some (Event.coingeckoPrice (Join args "-".data)))
      ∧ (args ≠ [] → ∀ v : Float64,
          (coingeckoPrice W (Join args "-".data)).err = none →
          (coingeckoPrice W (Join args "-".data)).price = v →
          (ProcessTask W task).err = none
            ∧ (∀ X : Int, v.mant ≠ 0 → IsDecimalExponent v X →
                (ProcessTask W task).response =
                  "Price for ".data ++ Join args "-".data ++ ": ".data ++ sixFractionDigits v
                    ++ " USD ($".data ++ compactSix v X ++ ")".data)
            ∧ (v.mant = 0 →
                (ProcessTask W task).response =
                  "Price for ".data ++ Join args "-".data ++ ": ".data ++ sixFractionDigits v
                    ++ " USD ($".data ++ (if v.neg then ['-'] else []) ++ "0)".data))
      ∧ (∀ v : Float64, v.mant ≠ 0 → ∃ X : Int, IsDecimalExponent v X)
      ∧ (sixFractionDigits usd65000_1234 = "65000.123400".data
          ∧ IsDecimalExponent usd65000_1234 4
          ∧ compactSix usd65000_1234 4 = "65000.1".data)
      ∧ (ProcessTask (worldWith 0 [] (.ok (bitcoinQuote usd65000_1234)))
            "price btc".data).response =
          "Price for btc: 65000.123400 USD ($65000.1)".data := by
  rw [ProcessTask_price W task part0 args hparts hcmd]
  refine ⟨fun h => ?_, fun h => ?_, fun h v herr hv => ?_, exists_decimalExponent,
    ⟨by decide, ⟨by decide, by decide⟩, by decide⟩, by decide⟩
  · subst h
    exact ⟨rfl, rfl, rfl⟩
  · have hlen : ¬ args.length = 0 := fun h0 => h (List.length_eq_zero.mp h0)
    rw [if_neg hlen]
    cases (coingeckoPrice W (Join args "-".data)).err <;> rfl
  · have hlen : ¬ args.length = 0 := fun h0 => h (List.length_eq_zero.mp h0)
    have hd := coingeckoPrice_display W (Join args "-".data) herr
    have hF : formatFloatF v 6 = sixFractionDigits v := formatFloatF_eq v 6 (by norm_num)
    rw [if_neg hlen, herr]
    simp only [hd, hv, hF]
    refine ⟨trivial, fun X hm hX => ?_, fun hm => ?_⟩
    · rw [formatFloatG_eq v hm X hX]
      simp only [List.append_assoc, List.cons_append, List.nil_append, String.data]
    · obtain ⟨neg, mant, exp⟩ := v
      simp only at hm
      subst hm
      rw [formatFloatG_zero]
      simp only [List.append_assoc, List.cons_append, List.nil_append]

set_option maxRecDepth 100000 in
/-- Witness of C10: `price btc` when the API answers `{"bitcoin": {"usd": 65000.1234}}`;
the request is made for the resolved identifier `bitcoin`, the response echoes `btc`,
and the value, of decimal exponent 4, is rendered `65000.123400` and `65000.1`. -/
theorem c10_price_response_witness :
    (ProcessTask (worldWith 0 [] (.ok (bitcoinQuote usd65000_1234))) "price btc".data).response =
        "Price for ".data ++ Join ["btc".data] "-".data ++ ": ".data
          ++ sixFractionDigits usd65000_1234 ++ " USD ($".data
          ++ compactSix usd65000_1234 4 ++ ")".data
      ∧ (ProcessTask (worldWith 0 [] (.ok (bitcoinQuote usd65000_1234))) "price btc".data).log =
        [Event.coingeckoPrice "btc".data,
          Event.httpGet
            "https://api.coingecko.com/api/v3/simple/price?ids=bitcoin&vs_currencies=usd".data]
      ∧ (ProcessTask (worldWith 0 [] (.ok (bitcoinQuote usd65000_1234)))
          "price Matic Network".data).log.head? =
        some (Event.coingeckoPrice "Matic-Network".data) :=
  ⟨((c10_price_response (worldWith 0 [] (.ok (bitcoinQuote usd65000_1234))) "price btc".data
      "price".data ["btc".data] (by decide) (by decide)).2.2.1 (by decide) usd65000_1234
      (by decide) (by decide)).2.1 4 (by decide) ⟨by decide, by decide⟩,
    by decide,
    (c10_price_response (worldWith 0 [] (.ok (bitcoinQuote usd65000_1234)))
      "price Matic Network".data "price".data ["Matic".data, "Network".data]
      (by decide) (by decide)).2.1 (by decide)⟩

/-! ## C4: the balance rendering -/

set_option maxRecDepth 100000 in
/-- C4, evaluated. A balance of `10^18` wei is rendered `1.000000000000000000 ETH`,
but the balance `16000000000000000001` wei is rendered `16.000000000000000002 ETH`
by `ethBalance`, where the exact value `n / 10^18` is `16.000000000000000001`:
the quotient is rounded to a 64-bit mantissa before it is printed. -/
theorem c4_balance_not_exact :
    formatBalance (10 ^ 18) = "1.000000000000000000 ETH".data
      ∧ (ethBalance (worldWith 16000000000000000001 [] (.error [])) "http://eth.node".data
            "0xABCDEF0000000000000000000000000000000001".data).display =
          "16.000000000000000002 ETH".data
      ∧ exactBalance 16000000000000000001 = "16.000000000000000001 ETH".data
      ∧ BigFloat.Quo (BigFloat.SetInt 16000000000000000001) BigFloat.NewFloat1e18 =
          ⟨64, 2 ^ 63 + 1, -59⟩ := by
  refine ⟨by decide, by decide, by decide, by decide⟩

end CryptoAgent
